import Mathlib

/-!
# BigNum and the segmented sieve driver

A shallow embedding of `bignum.h`, `bignum.cpp` and `generate_primes.cpp`.

* A `std::vector<uint64_t>` is a `List Nat`, least-significant limb first.  Every limb of a
  value the program can hold is below `2 ^ 64`; arithmetic on limbs is taken modulo `2 ^ 64`
  exactly where the source computes in `uint64_t`.
* Index loops over a vector are written as recursions over the part of the vector that starts
  at the loop index, so that `v[i]` is the head of the current suffix.
* Exceptions are values of `Failure`.  An access outside a vector (undefined behaviour in the
  source) is reported as `Failure.outOfRange`; a loop of the source that has no syntactic
  bound carries an iteration budget and reports `Failure.fuel` when the budget is used up.
-/

/-- The ways in which a modelled operation does not return a value. -/
inductive Failure where
  /-- The `std::underflow_error` thrown by `operator-`. -/
  | underflow
  /-- The `std::overflow_error` ("Divide by zero") thrown by `operator/`. -/
  | divideByZero
  /-- An access outside the bounds of a vector, or a negative vector size. -/
  | outOfRange
  /-- The iteration budget of the model was used up before the source loop returned. -/
  | fuel
  deriving DecidableEq, Repr

/-- The class `BigNum`: its only data member is `std::vector<uint64_t> data`. -/
structure BigNum where
  /-- The limbs, least significant first. -/
  data : List Nat
  deriving DecidableEq, Repr

namespace BigNum

/-- The constant `static const uint64_t BASE = 1ULL << 32`. -/
def BASE : Nat := 2 ^ 32

/-- The modulus of `uint64_t` arithmetic. -/
def WORD : Nat := 2 ^ 64

/-- Addition of two `uint64_t`. -/
def add64 (x y : Nat) : Nat := (x + y) % WORD

/-- Subtraction of two `uint64_t` (wraps around below zero). -/
def sub64 (x y : Nat) : Nat := (x % WORD + (WORD - y % WORD)) % WORD

/-- Multiplication of two `uint64_t`. -/
def mul64 (x y : Nat) : Nat := (x * y) % WORD

/-- The constructor `BigNum::BigNum(uint64_t value)`: one limb holding `value`, or no limb
when `value` is `0`.  The argument is a `uint64_t`, i.e. below `2 ^ 64`. -/
def ofUInt64 (value : Nat) : BigNum :=
  if value > 0 then ⟨[value]⟩ else ⟨[]⟩

/-- The function `BigNum::toInt`: limb 0 converted to `int` (the low 32 bits, read as a
two's complement number), or `0` when there is no limb. -/
def toInt (a : BigNum) : Int :=
  match a.data with
  | [] => 0
  | x :: _ => if x % 2 ^ 32 < 2 ^ 31 then ((x % 2 ^ 32 : Nat) : Int) else ((x % 2 ^ 32 : Nat) : Int) - 2 ^ 32

/-- The loop of `operator<` on two vectors of equal size, both read from the most significant
limb down: the first position where the limbs differ decides. -/
def ltLoop : List Nat → List Nat → Bool
  | x :: xs, y :: ys => if x ≠ y then decide (x < y) else ltLoop xs ys
  | _, _ => false

/-- The operator `operator<`: sizes are compared first, then the limbs from the top. -/
def lt (a other : BigNum) : Bool :=
  if a.data.length ≠ other.data.length then decide (a.data.length < other.data.length)
  else ltLoop a.data.reverse other.data.reverse

/-- The operator `operator==`: equality of the two vectors. -/
def eq (a other : BigNum) : Bool := decide (a.data = other.data)

/-- The operator `operator!=`. -/
def ne (a other : BigNum) : Bool := !(eq a other)

/-- The operator `operator<=`. -/
def le (a other : BigNum) : Bool := lt a other || eq a other

/-- The operator `operator>`. -/
def gt (a other : BigNum) : Bool := !(le a other)

/-- The operator `operator>=`. -/
def ge (a other : BigNum) : Bool := !(lt a other)

/-- The template `std::max(a, b)`, which is `(a < b) ? b : a`. -/
def max (a b : BigNum) : BigNum := if lt a b then b else a

/-- The template `std::min(a, b)`, which is `(b < a) ? b : a`. -/
def min (a b : BigNum) : BigNum := if lt b a then b else a

/-- The loop `while (v.size() > 1 && v.back() == 0) v.pop_back()` on the reversed vector:
the head of the list is `v.back()`. -/
def stripLoop : List Nat → List Nat
  | 0 :: y :: ys => stripLoop (y :: ys)
  | l => l

/-- The normalisation loop that ends `operator-`, `operator*`, `operator/` and `operator<<`. -/
def strip (l : List Nat) : List Nat := (stripLoop l.reverse).reverse

/-- The limb `sum = a + b + carry` of `operator+`. -/
def addSum (a b carry : Nat) : Nat := add64 (add64 a b) carry

/-- The carry `(sum < a) || (sum < b) || (carry && sum == a + b)` of `operator+`. -/
def addCarry (a b carry : Nat) : Nat :=
  if addSum a b carry < a ∨ addSum a b carry < b ∨ (carry ≠ 0 ∧ addSum a b carry = add64 a b)
  then 1 else 0

/-- The loop of `operator+` from index `i` on, once `i` is past the end of `*this` (its limb
reads as `0`): the limbs of `other` from `i` on and the carry; a carry left at the end is pushed. -/
def addTail : List Nat → Nat → List Nat
  | [], carry => if carry > 0 then [carry] else []
  | b :: ys, carry => addSum 0 b carry :: addTail ys (addCarry 0 b carry)

/-- The loop of `operator+` from index `i` on: the limbs of the two operands from `i` on (a
missing limb reads as `0`) and the carry. -/
def addLoop : List Nat → List Nat → Nat → List Nat
  | [], ys, carry => addTail ys carry
  | a :: xs, ys, carry =>
    addSum a (ys.headD 0) carry :: addLoop xs ys.tail (addCarry a (ys.headD 0) carry)

/-- The operator `operator+`. -/
def add (a other : BigNum) : BigNum := ⟨addLoop a.data other.data 0⟩

/-- The loop of `operator-` from index `i` on: the limbs of `*this` from `i` on, the limbs of
`other` from `i` on (a missing limb reads as `0`) and the borrow. -/
def subLoop : List Nat → List Nat → Nat → List Nat
  | [], _, _ => []
  | a :: xs, ys, borrow =>
    if a < add64 (ys.headD 0) borrow then
      sub64 (sub64 (add64 BASE a) (ys.headD 0)) borrow :: subLoop xs ys.tail 1
    else
      sub64 (sub64 a (ys.headD 0)) borrow :: subLoop xs ys.tail 0

/-- The operator `operator-`: throws when `*this < other`. -/
def sub (a other : BigNum) : Except Failure BigNum :=
  if lt a other then .error .underflow
  else .ok ⟨strip (subLoop a.data other.data 0)⟩

/-- The inner loop `for (j = 0; j < other.data.size() || carry; ++j)` of `operator*` for the
limb `x = data[i]`: the limbs of `other` from `j` on, the limbs of `result` from `i + j` on and
the carry.  It returns the limbs of `result` from `i + j` on. -/
def rowLoop (x : Nat) : List Nat → List Nat → Nat → Except Failure (List Nat)
  | [], rs, 0 => .ok rs
  | [], [], _ + 1 => .error .outOfRange
  | [], r :: rs, c + 1 =>
    (rowLoop x [] rs (add64 (add64 r (mul64 x 0)) (c + 1) / BASE)).map
      (fun t => add64 (add64 r (mul64 x 0)) (c + 1) % BASE :: t)
  | _ :: _, [], _ => .error .outOfRange
  | b :: bs, r :: rs, c =>
    (rowLoop x bs rs (add64 (add64 r (mul64 x b)) c / BASE)).map
      (fun t => add64 (add64 r (mul64 x b)) c % BASE :: t)

/-- The outer loop `for (i = 0; i < data.size(); ++i)` of `operator*`: the limbs of `*this`
from `i` on and the limbs of `result` from `i` on.  Row `i` leaves `result[i]` final. -/
def mulRows (other : List Nat) : List Nat → List Nat → Except Failure (List Nat)
  | [], rs => .ok rs
  | x :: xs, rs =>
    match rowLoop x other rs 0 with
    | .error e => .error e
    | .ok rs1 =>
      match mulRows other xs rs1.tail with
      | .error e => .error e
      | .ok t => .ok (rs1.take 1 ++ t)

/-- The operator `operator*`. -/
def mul (a other : BigNum) : Except Failure BigNum :=
  match mulRows other.data a.data (List.replicate (a.data.length + other.data.length) 0) with
  | .error e => .error e
  | .ok r => .ok ⟨strip r⟩

/-- The loop `while (low <= high)` of `divideSingleDigit`, with an iteration budget. -/
def divideSingleDigitLoop (self other : BigNum) : Nat → Nat → Nat → Except Failure Nat
  | 0, low, high => if low ≤ high then .error .fuel else .ok high
  | fuel + 1, low, high =>
    if low ≤ high then
      match mul other (ofUInt64 (add64 low high / 2)) with
      | .error e => .error e
      | .ok prod =>
        if le prod self then divideSingleDigitLoop self other fuel (add64 (add64 low high / 2) 1) high
        else divideSingleDigitLoop self other fuel low (sub64 (add64 low high / 2) 1)
    else .ok high

/-- The function `BigNum::divideSingleDigit`: binary search between `0` and `BASE - 1`. -/
def divideSingleDigit (self other : BigNum) : Except Failure Nat :=
  divideSingleDigitLoop self other 64 0 (BASE - 1)

/-- The loop `for (i = data.size() - 1; i >= 0; --i)` of `operator/`: the limbs of the dividend
from index `i` down (most significant first) and the running remainder.  It returns
`quotient.data[0 .. i]` and the last remainder. -/
def divLoop (divisor : BigNum) : List Nat → BigNum → Except Failure (List Nat × BigNum)
  | [], remainder => .ok ([], remainder)
  | d :: ds, remainder =>
    match mul remainder (ofUInt64 BASE) with
    | .error e => .error e
    | .ok shifted =>
      match divideSingleDigit (add shifted (ofUInt64 d)) divisor with
      | .error e => .error e
      | .ok q_digit =>
        match mul divisor (ofUInt64 q_digit) with
        | .error e => .error e
        | .ok prod =>
          match sub (add shifted (ofUInt64 d)) prod with
          | .error e => .error e
          | .ok remainder1 =>
            match divLoop divisor ds remainder1 with
            | .error e => .error e
            | .ok (qs, r) => .ok (qs ++ [q_digit], r)

/-- The operator `operator/`. -/
def div (a other : BigNum) : Except Failure BigNum :=
  if eq other (ofUInt64 0) then .error .divideByZero
  else
    match divLoop other a.data.reverse (ofUInt64 0) with
    | .error e => .error e
    | .ok (q, _) => .ok ⟨strip q⟩

/-- The operator `operator%`, which is `*this - (*this / other) * other`. -/
def mod (a other : BigNum) : Except Failure BigNum :=
  match div a other with
  | .error e => .error e
  | .ok q =>
    match mul q other with
    | .error e => .error e
    | .ok p => sub a p

/-- The loop of `operator<<` over the limbs from index `i` on, with the carry. -/
def shlLoop (shift_bits : Nat) : List Nat → Nat → List Nat
  | [], carry => if carry > 0 then [carry] else []
  | current :: rest, carry =>
    ((current <<< shift_bits) % WORD ||| carry) :: shlLoop shift_bits rest (current >>> (32 - shift_bits))

/-- The operator `operator<<` for a shift count `shift ≥ 0`. -/
def shl (a : BigNum) (shift : Nat) : BigNum :=
  ⟨strip (if shift % 32 > 0 then shlLoop (shift % 32) (List.replicate (shift / 32) 0 ++ a.data) 0
          else List.replicate (shift / 32) 0 ++ a.data)⟩

/-- The manipulators `std::setw(10) << std::setfill('0')` applied to a printed limb. -/
def pad10 (s : String) : String := String.mk (List.replicate (10 - s.length) '0') ++ s

/-- The function `BigNum::toString`: the top limb in decimal, then every lower limb in decimal
padded with zeros to ten characters; `"0"` when there is no limb. -/
def toString (a : BigNum) : String :=
  match a.data.reverse with
  | [] => "0"
  | top :: rest => rest.foldl (fun s x => s ++ pad10 (Nat.repr x)) (Nat.repr top)

/-- The argument `str[i] - '0'` of `fromString`, converted to `uint64_t`: the character code
minus 48, modulo `2 ^ 64`.  The characters of a decimal numeral give the digits `0` to `9`. -/
def digitOf (c : Char) : Nat := sub64 c.toNat 48

/-- The loop `for (int i = str.size() - 1; i >= 0; --i)` of `fromString`: the characters from
index `i` down to index 0, the value of `result` and the value of `base`. -/
def fromStringLoop : List Char → BigNum → BigNum → Except Failure BigNum
  | [], result, _ => .ok result
  | c :: cs, result, base =>
    match mul base (ofUInt64 (digitOf c)) with
    | .error e => .error e
    | .ok term =>
      match mul base (ofUInt64 10) with
      | .error e => .error e
      | .ok base1 => fromStringLoop cs (add result term) base1

/-- The function `BigNum::fromString`, which the constructor `BigNum(const std::string&)`
calls: `result` starts as the BigNum without limbs and `base` as `BigNum(1)`. -/
def fromString (str : String) : Except Failure BigNum :=
  fromStringLoop str.data.reverse (ofUInt64 0) (ofUInt64 1)

/-- The statement `is_prime[idx / 8] &= ~(1 << (idx % 8))` on the byte vector `is_prime`. -/
def clearBit (is_prime : List Nat) (idx : Int) : Except Failure (List Nat) :=
  if 0 ≤ idx ∧ idx.toNat / 8 < is_prime.length then
    .ok (is_prime.set (idx.toNat / 8)
      (is_prime.getD (idx.toNat / 8) 0 &&& (255 - 2 ^ (idx.toNat % 8))))
  else .error .outOfRange

/-- The test `is_prime[idx / 8] & (1 << (idx % 8))` on the byte vector `is_prime`. -/
def testBit (is_prime : List Nat) (idx : Int) : Except Failure Bool :=
  if 0 ≤ idx ∧ idx.toNat / 8 < is_prime.length then
    .ok (is_prime.getD (idx.toNat / 8) 0 &&& 2 ^ (idx.toNat % 8) != 0)
  else .error .outOfRange

/-- The loop `for (BigNum j = start; j <= high; j = j + prime)` of `segmented_sieve`, with an
iteration budget. -/
def markLoop (low high prime : BigNum) : Nat → BigNum → List Nat → Except Failure (List Nat)
  | 0, j, is_prime => if le j high then .error .fuel else .ok is_prime
  | fuel + 1, j, is_prime =>
    if le j high then
      if ge j low then
        match sub j low with
        | .error e => .error e
        | .ok off =>
          match clearBit is_prime (toInt off) with
          | .error e => .error e
          | .ok is_prime1 => markLoop low high prime fuel (add j prime) is_prime1
      else markLoop low high prime fuel (add j prime) is_prime
    else .ok is_prime

/-- The value `std::max(prime * prime, (low + prime - BigNum(1)) / prime * prime)` from which
`segmented_sieve` starts to strike out the multiples of `prime`. -/
def sieveStart (low prime : BigNum) : Except Failure BigNum :=
  match mul prime prime with
  | .error e => .error e
  | .ok pp =>
    match sub (add low prime) (ofUInt64 1) with
    | .error e => .error e
    | .ok t =>
      match div t prime with
      | .error e => .error e
      | .ok q =>
        match mul q prime with
        | .error e => .error e
        | .ok r => .ok (max pp r)

/-- The loop `for (const BigNum& prime : small_primes)` of `segmented_sieve`. -/
def sieveLoop (fuel : Nat) (low high : BigNum) : List BigNum → List Nat → Except Failure (List Nat)
  | [], is_prime => .ok is_prime
  | prime :: rest, is_prime =>
    match sieveStart low prime with
    | .error e => .error e
    | .ok start =>
      match markLoop low high prime fuel start is_prime with
      | .error e => .error e
      | .ok is_prime1 => sieveLoop fuel low high rest is_prime1

/-- The loop `for (BigNum i = 0; i < size; i = i + BigNum(1))` of `segmented_sieve`, with an
iteration budget.  It returns the numbers `low + i` whose `toString()` is written to
`result_buffer`, each followed by a newline, in the order of writing. -/
def outputLoop (low size : BigNum) (is_prime : List Nat) : Nat → BigNum → Except Failure (List BigNum)
  | 0, i => if lt i size then .error .fuel else .ok []
  | fuel + 1, i =>
    if lt i size then
      match testBit is_prime (toInt i) with
      | .error e => .error e
      | .ok bit =>
        match outputLoop low size is_prime fuel (add i (ofUInt64 1)) with
        | .error e => .error e
        | .ok rest => .ok (if bit then add low i :: rest else rest)
    else .ok []

/-- The byte vector `std::vector<uint8_t> is_prime((size.toInt() + 7) / 8, 0xFF)`.  A sum
`size.toInt() + 7` outside `int` and a negative element count are failures. -/
def newBits (size : BigNum) : Except Failure (List Nat) :=
  if toInt size + 7 ≥ 2 ^ 31 ∨ toInt size + 7 ≤ -8 then .error .outOfRange
  else .ok (List.replicate ((toInt size + 7).toNat / 8) 255)

/-- The worker `segmented_sieve(low, high, small_primes, ...)`: the numbers it writes to its
local buffer, in order.  The whole buffer is appended to the file under the lock; the last
three parameters of the source only feed the progress bar. -/
def segmented_sieve (fuel : Nat) (low high : BigNum) (small_primes : List BigNum) :
    Except Failure (List BigNum) :=
  match sub high low with
  | .error e => .error e
  | .ok d =>
    match newBits (add d (ofUInt64 1)) with
    | .error e => .error e
    | .ok is_prime =>
      match sieveLoop fuel low high small_primes is_prime with
      | .error e => .error e
      | .ok is_prime1 => outputLoop low (add d (ofUInt64 1)) is_prime1 fuel (ofUInt64 0)

/-- The inner loop `for (const BigNum& prime : small_primes)` of `generate_primes`: the final
value of the flag `is_prime` for the candidate `i`. -/
def trialLoop (i : BigNum) : List BigNum → Except Failure Bool
  | [] => .ok true
  | prime :: rest =>
    match mul prime prime with
    | .error e => .error e
    | .ok pp =>
      if gt pp i then .ok true
      else
        match mod i prime with
        | .error e => .error e
        | .ok r => if eq r (ofUInt64 0) then .ok false else trialLoop i rest

/-- The loop `for (BigNum i = 3; i <= sqrt_limit; i = i + BigNum(2))` of `generate_primes`,
with an iteration budget: the final value of `small_primes`. -/
def smallPrimesLoop (sqrt_limit : BigNum) : Nat → BigNum → List BigNum → Except Failure (List BigNum)
  | 0, i, small_primes => if le i sqrt_limit then .error .fuel else .ok small_primes
  | fuel + 1, i, small_primes =>
    if le i sqrt_limit then
      match trialLoop i small_primes with
      | .error e => .error e
      | .ok is_prime =>
        smallPrimesLoop sqrt_limit fuel (add i (ofUInt64 2))
          (if is_prime then small_primes ++ [i] else small_primes)
    else .ok small_primes

/-- The list `small_primes` that `generate_primes` builds before it spawns a worker.  The
source takes `sqrt` of `limit.toInt()` in `double` and converts to `uint64_t`; for a
non-negative `int` that is the integer square root. -/
def small_primes (fuel : Nat) (limit : BigNum) : Except Failure (List BigNum) :=
  smallPrimesLoop (ofUInt64 (Nat.sqrt (toInt limit).toNat)) fuel (ofUInt64 3) [ofUInt64 2]

/-- The loop `for (BigNum segment = BigNum(0); segment < limit; segment = segment + segment_size)`
of `generate_primes`, with an iteration budget: the pairs `(low, high)` handed to the workers,
in the order of spawning. -/
def segmentLoop (limit segment_size : BigNum) : Nat → BigNum → Except Failure (List (BigNum × BigNum))
  | 0, segment => if lt segment limit then .error .fuel else .ok []
  | fuel + 1, segment =>
    if lt segment limit then
      match sub (add segment segment_size) (ofUInt64 1) with
      | .error e => .error e
      | .ok e1 =>
        match segmentLoop limit segment_size fuel (add segment segment_size) with
        | .error e => .error e
        | .ok rest => .ok ((segment, min e1 limit) :: rest)
    else .ok []

/-- The segments `(low, high)` of `generate_primes(limit, num_threads, n_bits)`. -/
def segments (fuel : Nat) (limit : BigNum) (num_threads : Nat) :
    Except Failure (List (BigNum × BigNum)) :=
  match div limit (ofUInt64 num_threads) with
  | .error e => .error e
  | .ok segment_size => segmentLoop limit segment_size fuel (ofUInt64 0)

/-- The workers of `generate_primes` run one after the other: the buffer of each. -/
def runWorkers (fuel : Nat) (small : List BigNum) :
    List (BigNum × BigNum) → Except Failure (List (List BigNum))
  | [] => .ok []
  | (low, high) :: rest =>
    match segmented_sieve fuel low high small with
    | .error e => .error e
    | .ok buf =>
      match runWorkers fuel small rest with
      | .error e => .error e
      | .ok bufs => .ok (buf :: bufs)

/-- The function `generate_primes(limit, num_threads, n_bits)`: the buffers that the workers
append to `primes.txt`, listed in the order in which the workers are spawned.  Each worker
appends its whole buffer under `file_mutex`, so the file holds these buffers in the order in
which the workers finish. -/
def generate_primes (fuel : Nat) (limit : BigNum) (num_threads : Nat) :
    Except Failure (List (List BigNum)) :=
  match small_primes fuel limit with
  | .error e => .error e
  | .ok small =>
    match segments fuel limit num_threads with
    | .error e => .error e
    | .ok segs => runWorkers fuel small segs

/-- The number a limb sequence stands for in base `2 ^ 32`: the sum of `limb i * 2 ^ (32 * i)`. -/
def value : List Nat → Nat
  | [] => 0
  | x :: xs => x + BASE * value xs

/-- Every limb is below `2 ^ 32`. -/
def limbsOk (a : BigNum) : Prop := ∀ x ∈ a.data, x < BASE

/-- The most significant limb is not zero; zero is the empty sequence. -/
def normalized (a : BigNum) : Prop := a.data.getLast? ≠ some 0

instance (a : BigNum) : Decidable (limbsOk a) := by unfold limbsOk; infer_instance

instance (a : BigNum) : Decidable (normalized a) := by unfold normalized; infer_instance


/-- A limb sequence in the form the normalisation loop leaves behind: at least one limb, every
limb below `BASE`, and no top zero limb that the loop would still remove. -/
def Canon (l : List Nat) : Prop := l ≠ [] ∧ (∀ x ∈ l, x < BASE) ∧ strip l = l

/-- The bit of the byte vector `is_prime` that stands for offset `k`: bit `k % 8` of byte
`k / 8`, as `segmented_sieve` reads it. -/
def bitAt (is_prime : List Nat) (k : Nat) : Bool :=
  is_prime.getD (k / 8) 0 &&& 2 ^ (k % 8) != 0

/-! ### Comparison -/

theorem ltLoop_self (l : List Nat) : ltLoop l l = false := by
  induction l with
  | nil => rfl
  | cons x xs ih => simp [ltLoop, ih]

theorem lt_false_of_eq (a b : BigNum) (h : eq a b = true) : lt a b = false := by
  have hd : a.data = b.data := by simpa [eq] using h
  simp [lt, hd, ltLoop_self]

/-! ### The value of a limb sequence -/


theorem BASE_val : BASE = 4294967296 := by norm_num [BASE]

theorem WORD_val : WORD = 18446744073709551616 := by norm_num [WORD]

theorem BASE_pos : 0 < BASE := by rw [BASE_val]; omega

theorem value_nil : value [] = 0 := rfl

theorem value_cons (x : Nat) (xs : List Nat) : value (x :: xs) = x + BASE * value xs := rfl

theorem value_append (xs ys : List Nat) :
    value (xs ++ ys) = value xs + BASE ^ xs.length * value ys := by
  induction xs with
  | nil => simp [value]
  | cons x xs ih =>
    simp only [List.cons_append, value_cons, ih, List.length_cons, pow_succ]
    ring

theorem value_lt (l : List Nat) (h : ∀ x ∈ l, x < BASE) : value l < BASE ^ l.length := by
  induction l with
  | nil => simp [value]
  | cons x xs ih =>
    have hx : x < BASE := h x (List.mem_cons_self _ _)
    have ih1 := ih (fun y hy => h y (List.mem_cons_of_mem _ hy))
    simp only [value_cons, List.length_cons, pow_succ]
    nlinarith

theorem value_replicate_zero (n : Nat) : value (List.replicate n 0) = 0 := by
  induction n with
  | zero => rfl
  | succ n ih => simp [List.replicate_succ, value_cons, ih]

theorem value_inj (l1 l2 : List Nat) (hlen : l1.length = l2.length)
    (h1 : ∀ x ∈ l1, x < BASE) (h2 : ∀ x ∈ l2, x < BASE) (hv : value l1 = value l2) : l1 = l2 := by
  induction l1 generalizing l2 with
  | nil =>
    cases l2 with
    | nil => rfl
    | cons y ys => simp at hlen
  | cons x xs ih =>
    cases l2 with
    | nil => simp at hlen
    | cons y ys =>
      have hx : x < BASE := h1 x (List.mem_cons_self _ _)
      have hy : y < BASE := h2 y (List.mem_cons_self _ _)
      simp only [value_cons] at hv
      rw [BASE_val] at hx hy hv
      have hxy : x = y := by omega
      have hvs : value xs = value ys := by omega
      have := ih ys (by simpa using hlen) (fun z hz => h1 z (List.mem_cons_of_mem _ hz))
        (fun z hz => h2 z (List.mem_cons_of_mem _ hz)) hvs
      rw [hxy, this]

/-! ### The normalisation loop -/

theorem stripLoop_append_singleton (r : List Nat) (x : Nat) (hr : r ≠ []) :
    stripLoop (r ++ [x]) = if stripLoop r = [0] then [x] else stripLoop r ++ [x] := by
  induction r with
  | nil => exact absurd rfl hr
  | cons z zs ih =>
    cases zs with
    | nil =>
      cases z with
      | zero => simp [stripLoop]
      | succ z => simp [stripLoop]
    | cons y ys =>
      cases z with
      | zero =>
        have := ih (by simp)
        simpa [stripLoop] using this
      | succ z => simp [stripLoop]

theorem strip_nil : strip [] = [] := rfl

theorem strip_singleton (x : Nat) : strip [x] = [x] := by
  cases x <;> simp [strip, stripLoop]

theorem strip_cons_cons (x y : Nat) (ys : List Nat) :
    strip (x :: y :: ys) = if strip (y :: ys) = [0] then [x] else x :: strip (y :: ys) := by
  have hrev : ∀ r : List Nat, r.reverse = [0] ↔ r = [0] := by
    intro r
    constructor
    · intro h
      have := congrArg List.reverse h
      simpa using this
    · intro h
      rw [h]
      rfl
  unfold strip
  rw [List.reverse_cons (a := x), stripLoop_append_singleton _ _ (by simp)]
  by_cases h : stripLoop (y :: ys).reverse = [0]
  · rw [if_pos h, if_pos ((hrev _).mpr h)]
    rfl
  · rw [if_neg h, if_neg (fun hh => h ((hrev _).mp hh))]
    simp

theorem strip_ne_nil (l : List Nat) (h : l ≠ []) : strip l ≠ [] := by
  induction l with
  | nil => exact absurd rfl h
  | cons x xs ih =>
    cases xs with
    | nil => simp [strip_singleton]
    | cons y ys =>
      rw [strip_cons_cons]
      split <;> simp

theorem strip_value (l : List Nat) : value (strip l) = value l := by
  induction l with
  | nil => rfl
  | cons x xs ih =>
    cases xs with
    | nil => rw [strip_singleton]
    | cons y ys =>
      rw [strip_cons_cons]
      split
      · rename_i h
        rw [h] at ih
        rw [value_cons x (y :: ys), ← ih]
        simp [value]
      · simp only [value_cons, ih]

theorem strip_mem (l : List Nat) : ∀ x ∈ strip l, x ∈ l := by
  induction l with
  | nil => simp [strip_nil]
  | cons x xs ih =>
    cases xs with
    | nil => simp [strip_singleton]
    | cons y ys =>
      rw [strip_cons_cons]
      split
      · simp
      · intro z hz
        rcases List.mem_cons.mp hz with h | h
        · simp [h]
        · exact List.mem_cons_of_mem _ (ih z h)

theorem strip_idem (l : List Nat) : strip (strip l) = strip l := by
  induction l with
  | nil => rfl
  | cons x xs ih =>
    cases xs with
    | nil => simp [strip_singleton]
    | cons y ys =>
      rw [strip_cons_cons]
      split
      · exact strip_singleton x
      · rename_i h
        have hne := strip_ne_nil (y :: ys) (by simp)
        obtain ⟨z, zs, hz⟩ := List.exists_cons_of_ne_nil hne
        rw [hz] at ih h ⊢
        rw [strip_cons_cons, ih]
        simp [h]

theorem strip_of_getLast (l : List Nat) (h : l.getLast? ≠ some 0) : strip l = l := by
  induction l with
  | nil => rfl
  | cons x xs ih =>
    cases xs with
    | nil => exact strip_singleton x
    | cons y ys =>
      have h2 : (y :: ys).getLast? ≠ some 0 := by
        simpa [List.getLast?_cons_cons] using h
      have ih2 := ih h2
      rw [strip_cons_cons, ih2]
      have : ¬ (y :: ys = [0]) := by
        intro hh
        rw [hh] at h2
        simp at h2
      simp [this]


theorem strip_fixed_lower (l : List Nat) (hs : strip l = l) (hlen : 2 ≤ l.length) :
    BASE ^ (l.length - 1) ≤ value l := by
  induction l with
  | nil => simp at hlen
  | cons x xs ih =>
    cases xs with
    | nil => simp at hlen
    | cons y ys =>
      rw [strip_cons_cons] at hs
      by_cases h0 : strip (y :: ys) = [0]
      · rw [if_pos h0] at hs
        simp at hs
      · rw [if_neg h0] at hs
        have hs2 : strip (y :: ys) = y :: ys := by
          simpa using hs
        cases ys with
        | nil =>
          have hy : y ≠ 0 := by
            intro hy
            apply h0
            rw [hy]
            exact strip_singleton 0
          simp only [List.length_cons, List.length_nil, value_cons, value_nil]
          have : BASE * 1 ≤ BASE * y := Nat.mul_le_mul_left _ (by omega)
          simp at this ⊢
          omega
        | cons z zs =>
          have ih2 := ih hs2 (by simp)
          have hm : BASE * BASE ^ ((y :: z :: zs).length - 1) ≤ BASE * value (y :: z :: zs) :=
            Nat.mul_le_mul_left _ ih2
          rw [value_cons x]
          have hp : BASE ^ ((x :: y :: z :: zs).length - 1) = BASE * BASE ^ ((y :: z :: zs).length - 1) := by
            simp only [List.length_cons, Nat.add_sub_cancel]
            rw [pow_succ]
            ring
          rw [hp]
          omega

theorem ltLoop_value (r1 r2 : List Nat) (hlen : r1.length = r2.length)
    (h1 : ∀ x ∈ r1, x < BASE) (h2 : ∀ x ∈ r2, x < BASE) :
    ltLoop r1 r2 = decide (value r1.reverse < value r2.reverse) := by
  induction r1 generalizing r2 with
  | nil =>
    cases r2 with
    | nil => simp [ltLoop, value]
    | cons y ys => simp at hlen
  | cons x xs ih =>
    cases r2 with
    | nil => simp at hlen
    | cons y ys =>
      have hl : xs.length = ys.length := by simpa using hlen
      have hxs : ∀ z ∈ xs, z < BASE := fun z hz => h1 z (List.mem_cons_of_mem _ hz)
      have hys : ∀ z ∈ ys, z < BASE := fun z hz => h2 z (List.mem_cons_of_mem _ hz)
      have b1 := value_lt xs.reverse (by simpa using hxs)
      have b2 := value_lt ys.reverse (by simpa using hys)
      simp only [List.length_reverse] at b1 b2
      simp only [List.reverse_cons, value_append, value_cons, value_nil, List.length_reverse,
        Nat.mul_zero, Nat.add_zero]
      rw [← hl] at b2 ⊢
      generalize BASE ^ xs.length = P at b1 b2 ⊢
      by_cases hxy : x = y
      · subst hxy
        simp only [ltLoop, ne_eq, not_true_eq_false, if_false]
        rw [ih ys hl hxs hys]
        simp
      · simp only [ltLoop, ne_eq, hxy, not_false_eq_true, if_true]
        rcases Nat.lt_or_gt_of_ne hxy with h | h
        · have : P * (x + 1) ≤ P * y := Nat.mul_le_mul_left _ h
          have hgoal : value xs.reverse + P * x < value ys.reverse + P * y := by
            rw [Nat.mul_add] at this
            omega
          simp [h, hgoal]
        · have : P * (y + 1) ≤ P * x := Nat.mul_le_mul_left _ h
          have hgoal : ¬ (value xs.reverse + P * x < value ys.reverse + P * y) := by
            rw [Nat.mul_add] at this
            omega
          have hnot : ¬ x < y := by omega
          simp [hnot, hgoal]

theorem canon_length_lt (a b : List Nat) (ha : Canon a) (hb : Canon b)
    (hlen : a.length < b.length) : value a < value b := by
  obtain ⟨hane, hal, _⟩ := ha
  obtain ⟨_, _, hbs⟩ := hb
  have h1 := value_lt a hal
  have hapos : 1 ≤ a.length := by
    cases a with
    | nil => exact absurd rfl hane
    | cons x xs => simp
  have h2 := strip_fixed_lower b hbs (by omega)
  have h3 : BASE ^ a.length ≤ BASE ^ (b.length - 1) :=
    Nat.pow_le_pow_right BASE_pos (by omega)
  omega

theorem canon_lt (a b : List Nat) (ha : Canon a) (hb : Canon b) :
    lt ⟨a⟩ ⟨b⟩ = decide (value a < value b) := by
  unfold lt
  simp only
  by_cases hlen : a.length = b.length
  · rw [if_neg (by simpa using hlen)]
    have := ltLoop_value a.reverse b.reverse (by simpa using hlen)
      (by simpa using ha.2.1) (by simpa using hb.2.1)
    simpa using this
  · rw [if_pos (by simpa using hlen)]
    rcases Nat.lt_or_gt_of_ne hlen with h | h
    · have := canon_length_lt a b ha hb h
      simp [h, this]
    · have := canon_length_lt b a hb ha h
      have h1 : ¬ a.length < b.length := by omega
      have h2 : ¬ value a < value b := by omega
      simp [h1, h2]

theorem canon_eq_of_value (a b : List Nat) (ha : Canon a) (hb : Canon b)
    (hv : value a = value b) : a = b := by
  have hlen : a.length = b.length := by
    by_contra hne
    rcases Nat.lt_or_gt_of_ne hne with h | h
    · have := canon_length_lt a b ha hb h
      omega
    · have := canon_length_lt b a hb ha h
      omega
  exact value_inj a b hlen ha.2.1 hb.2.1 hv

theorem canon_le (a b : List Nat) (ha : Canon a) (hb : Canon b) :
    le ⟨a⟩ ⟨b⟩ = decide (value a ≤ value b) := by
  unfold le
  rw [canon_lt a b ha hb]
  unfold eq
  simp only
  by_cases hlt : value a < value b
  · have : value a ≤ value b := by omega
    simp [hlt, this]
  · by_cases heq : value a = value b
    · have := canon_eq_of_value a b ha hb heq
      simp [this]
    · have hne : a ≠ b := fun h => heq (by rw [h])
      have : ¬ value a ≤ value b := by omega
      simp [hlt, hne, this]

theorem canon_strip (l : List Nat) (hne : l ≠ []) (hl : ∀ x ∈ l, x < BASE) : Canon (strip l) :=
  ⟨strip_ne_nil l hne, fun x hx => hl x (strip_mem l x hx), strip_idem l⟩

theorem canon_of_normalized (l : List Nat) (hne : l ≠ []) (hl : ∀ x ∈ l, x < BASE)
    (hn : l.getLast? ≠ some 0) : Canon l :=
  ⟨hne, hl, strip_of_getLast l hn⟩


/-! ### Multiplication -/

theorem row_arith (r P c vrs Q n : Nat) (hr : r < 4294967296)
    (hP : P ≤ 4294967295 * 4294967295) (hc : c < 4294967296)
    (hbound : r + 4294967296 * vrs + (P + 4294967296 * Q) + c < 4294967296 * n) :
    (r + P % 18446744073709551616) % 18446744073709551616 + c < 18446744073709551616 ∧
    ((r + P % 18446744073709551616) % 18446744073709551616 + c) % 18446744073709551616 = r + P + c ∧
    (r + P + c) / 4294967296 < 4294967296 ∧
    (r + P + c) % 4294967296 < 4294967296 ∧
    vrs + Q + (r + P + c) / 4294967296 < n ∧
    (r + P + c) % 4294967296 + 4294967296 * (vrs + Q + (r + P + c) / 4294967296) =
      r + 4294967296 * vrs + (P + 4294967296 * Q) + c := by
  omega

theorem rowLoop_spec (x : Nat) (hx : x < BASE) :
    ∀ (rs bs : List Nat) (c : Nat), (∀ b ∈ bs, b < BASE) → (∀ r ∈ rs, r < BASE) → c < BASE →
      bs.length ≤ rs.length → value rs + x * value bs + c < BASE ^ rs.length →
      ∃ res, rowLoop x bs rs c = .ok res ∧ res.length = rs.length ∧ (∀ r ∈ res, r < BASE) ∧
        value res = value rs + x * value bs + c := by
  intro rs
  induction rs with
  | nil =>
    intro bs c _ _ _ hlen hbound
    have hbs : bs = [] := by
      cases bs with
      | nil => rfl
      | cons b bs => simp at hlen
    subst hbs
    simp only [value_nil, List.length_nil, pow_zero, Nat.mul_zero] at hbound
    have hc0 : c = 0 := by omega
    subst hc0
    exact ⟨[], by simp [rowLoop], rfl, by simp, by simp [value]⟩
  | cons r rs ih =>
    intro bs c hbs hrs hc hlen hbound
    have hr : r < BASE := hrs r (List.mem_cons_self _ _)
    have hrs1 : ∀ z ∈ rs, z < BASE := fun z hz => hrs z (List.mem_cons_of_mem _ hz)
    cases bs with
    | nil =>
      cases c with
      | zero =>
        exact ⟨r :: rs, by simp [rowLoop], rfl, hrs, by simp [value]⟩
      | succ c =>
        simp only [value_cons, value_nil, List.length_cons, pow_succ, Nat.mul_zero] at hbound
        generalize hn : BASE ^ rs.length = n at hbound
        rw [BASE_val] at hr hc hbound
        have har := row_arith r 0 (c + 1) (value rs) 0 n hr (by omega) hc (by omega)
        simp only [Nat.zero_mod, Nat.add_zero, Nat.mul_zero] at har
        obtain ⟨_, ha2, ha3, ha4, ha5, ha6⟩ := har
        have hstep : add64 (add64 r (mul64 x 0)) (c + 1) = r + (c + 1) := by
          simp only [add64, mul64, WORD_val, Nat.mul_zero, Nat.zero_mod, Nat.add_zero]
          omega
        obtain ⟨res, hres, hlen2, hlimb, hval⟩ := ih [] ((r + (c + 1)) / BASE) (by simp) hrs1
          (by rw [BASE_val]; omega) (by simp)
          (by rw [hn]; simp only [value_nil, Nat.mul_zero]; rw [BASE_val]; omega)
        refine ⟨(r + (c + 1)) % BASE :: res, ?_, by simp [hlen2], ?_, ?_⟩
        · simp only [rowLoop, hstep, hres, Except.map]
        · intro z hz
          rcases List.mem_cons.mp hz with h | h
          · rw [h, BASE_val]; omega
          · exact hlimb z h
        · simp only [value_cons, hval, value_nil, Nat.mul_zero]
          rw [BASE_val]
          omega
    | cons b bs =>
      have hb : b < BASE := hbs b (List.mem_cons_self _ _)
      have hbs1 : ∀ z ∈ bs, z < BASE := fun z hz => hbs z (List.mem_cons_of_mem _ hz)
      have hxb : x * b ≤ 4294967295 * 4294967295 := by
        rw [BASE_val] at hx hb
        exact Nat.mul_le_mul (by omega) (by omega)
      have hexp : x * (b + BASE * value bs) = x * b + BASE * (x * value bs) := by ring
      simp only [value_cons, List.length_cons, pow_succ, hexp] at hbound
      generalize hn : BASE ^ rs.length = n at hbound
      rw [BASE_val] at hr hc hbound
      have har := row_arith r (x * b) c (value rs) (x * value bs) n hr hxb hc (by omega)
      obtain ⟨_, ha2, ha3, ha4, ha5, ha6⟩ := har
      have hstep : add64 (add64 r (mul64 x b)) c = r + x * b + c := by
        simp only [add64, mul64, WORD_val]
        omega
      obtain ⟨res, hres, hlen2, hlimb, hval⟩ := ih bs ((r + x * b + c) / BASE) hbs1 hrs1
        (by rw [BASE_val]; omega) (by simpa using hlen)
        (by rw [hn, BASE_val]; omega)
      refine ⟨(r + x * b + c) % BASE :: res, ?_, by simp [hlen2], ?_, ?_⟩
      · simp only [rowLoop, hstep, hres, Except.map]
      · intro z hz
        rcases List.mem_cons.mp hz with h | h
        · rw [h, BASE_val]; omega
        · exact hlimb z h
      · simp only [value_cons, hval, hexp]
        rw [BASE_val]
        omega


theorem mulRows_spec (other : List Nat) (ho : ∀ b ∈ other, b < BASE) :
    ∀ (xs rs : List Nat), (∀ x ∈ xs, x < BASE) → (∀ r ∈ rs, r < BASE) →
      xs.length + other.length ≤ rs.length →
      value rs + value xs * value other < BASE ^ rs.length →
      ∃ res, mulRows other xs rs = .ok res ∧ res.length = rs.length ∧ (∀ r ∈ res, r < BASE) ∧
        value res = value rs + value xs * value other := by
  intro xs
  induction xs with
  | nil =>
    intro rs _ hrs _ _
    exact ⟨rs, rfl, rfl, hrs, by simp [value]⟩
  | cons x xs ih =>
    intro rs hxs hrs hlen hbound
    have hx : x < BASE := hxs x (List.mem_cons_self _ _)
    have hxs1 : ∀ z ∈ xs, z < BASE := fun z hz => hxs z (List.mem_cons_of_mem _ hz)
    have hexp : (x + BASE * value xs) * value other
        = x * value other + BASE * (value xs * value other) := by ring
    simp only [value_cons, hexp] at hbound
    simp only [List.length_cons] at hlen
    obtain ⟨rs1, hrow, hlen1, hlimb1, hval1⟩ := rowLoop_spec x hx rs other 0 ho hrs BASE_pos
      (by omega) (by omega)
    cases rs1 with
    | nil =>
      simp only [List.length_nil] at hlen1
      omega
    | cons h t =>
      have hrl : rs.length = t.length + 1 := by simpa using hlen1.symm
      simp only [value_cons, Nat.add_zero] at hval1
      rw [hrl, pow_succ] at hbound
      have hb2 : value t + value xs * value other < BASE ^ t.length := by
        generalize BASE ^ t.length = n at hbound
        generalize value xs * value other = Q at hbound ⊢
        rw [BASE_val] at hbound hval1
        omega
      obtain ⟨res, hres, hlen2, hlimb2, hval2⟩ := ih t hxs1
        (fun z hz => hlimb1 z (List.mem_cons_of_mem _ hz)) (by omega) hb2
      refine ⟨h :: res, ?_, by simp [hlen2, hrl], ?_, ?_⟩
      · simp only [mulRows, hrow, List.tail_cons, hres, List.take_succ_cons, List.take_zero,
          List.singleton_append]
      · intro z hz
        rcases List.mem_cons.mp hz with h1 | h1
        · rw [h1]; exact hlimb1 h (List.mem_cons_self _ _)
        · exact hlimb2 z h1
      · simp only [value_cons, hval2, hexp]
        generalize value xs * value other = Q
        rw [BASE_val] at hval1 ⊢
        omega

theorem mul_spec (a b : BigNum) (ha : limbsOk a) (hb : limbsOk b) :
    ∃ r, mul a b = .ok ⟨strip r⟩ ∧ r.length = a.data.length + b.data.length ∧
      (∀ x ∈ r, x < BASE) ∧ value r = value a.data * value b.data := by
  have h1 := value_lt a.data ha
  have h2 := value_lt b.data hb
  have hbound : value (List.replicate (a.data.length + b.data.length) 0)
      + value a.data * value b.data
      < BASE ^ (List.replicate (a.data.length + b.data.length) 0).length := by
    rw [value_replicate_zero, List.length_replicate, pow_add, Nat.zero_add]
    exact Nat.mul_lt_mul'' h1 h2
  obtain ⟨res, hres, hlen, hlimb, hval⟩ := mulRows_spec b.data hb a.data
    (List.replicate (a.data.length + b.data.length) 0) ha
    (by intro r hr; rw [List.eq_of_mem_replicate hr]; exact BASE_pos)
    (by simp) hbound
  refine ⟨res, ?_, by simpa using hlen, hlimb, ?_⟩
  · simp only [mul, hres]
  · rw [hval, value_replicate_zero, Nat.zero_add]

theorem rowLoop_base (x p : Nat) (zs : List Nat) (hx : x < BASE) (hp : p < BASE) :
    rowLoop x [BASE] (p :: 0 :: zs) 0 = .ok (p :: x :: zs) := by
  have h1 : add64 (add64 p (mul64 x BASE)) 0 = p + x * 4294967296 := by
    simp only [add64, mul64, WORD_val, BASE_val] at hx hp ⊢
    omega
  have h2 : (p + x * 4294967296) % BASE = p := by
    rw [BASE_val] at hp ⊢
    omega
  have h3 : (p + x * 4294967296) / BASE = x := by
    rw [BASE_val] at hp ⊢
    omega
  have h4 : rowLoop x [] (0 :: zs) x = .ok (x :: zs) := by
    cases x with
    | zero => simp [rowLoop]
    | succ c =>
      have h5 : add64 (add64 0 (mul64 (c + 1) 0)) (c + 1) = c + 1 := by
        simp only [add64, mul64, WORD_val, BASE_val] at hx ⊢
        omega
      have h6 : (c + 1) % BASE = c + 1 := by
        rw [BASE_val] at hx ⊢
        omega
      have h7 : (c + 1) / BASE = 0 := by
        rw [BASE_val] at hx ⊢
        omega
      simp only [rowLoop, h5, h6, h7, Except.map]
  simp only [rowLoop, h1, h2, h3, h4, Except.map]

theorem mulRows_base (xs : List Nat) (hxs : ∀ x ∈ xs, x < BASE) :
    ∀ p, p < BASE → mulRows [BASE] xs (p :: List.replicate xs.length 0) = .ok (p :: xs) := by
  induction xs with
  | nil => intro p _; rfl
  | cons x xs ih =>
    intro p hp
    have hx : x < BASE := hxs x (List.mem_cons_self _ _)
    have hxs1 : ∀ z ∈ xs, z < BASE := fun z hz => hxs z (List.mem_cons_of_mem _ hz)
    simp only [mulRows, List.length_cons, List.replicate_succ, rowLoop_base x p _ hx hp,
      List.tail_cons, ih hxs1 x hx, List.take_succ_cons, List.take_zero, List.singleton_append]

theorem mul_base (r : List Nat) (hr : ∀ x ∈ r, x < BASE) :
    mul ⟨r⟩ (ofUInt64 BASE) = .ok ⟨strip (0 :: r)⟩ := by
  have h0 : ofUInt64 BASE = ⟨[BASE]⟩ := by
    simp [ofUInt64, BASE_pos]
  have := mulRows_base r hr 0 BASE_pos
  simp only [mul, h0, List.length_singleton, List.replicate_succ, this]


/-! ### Addition of one limb and subtraction -/

theorem addLoop_nil_right (xs : List Nat) (hxs : ∀ x ∈ xs, x < BASE) : addLoop xs [] 0 = xs := by
  induction xs with
  | nil => simp [addLoop, addTail]
  | cons a xs ih =>
    have ha : a < BASE := hxs a (List.mem_cons_self _ _)
    have h1 : addSum a 0 0 = a := by
      simp only [addSum, add64, WORD_val, BASE_val] at ha ⊢
      omega
    have h2 : addCarry a 0 0 = 0 := by
      simp [addCarry, h1]
    simp only [addLoop, List.headD_nil, List.tail_nil, h1, h2,
      ih (fun z hz => hxs z (List.mem_cons_of_mem _ hz))]

theorem add_digit (t : List Nat) (d : Nat) (ht : ∀ x ∈ t, x < BASE) (hd : d < BASE) :
    add ⟨0 :: t⟩ (ofUInt64 d) = ⟨d :: t⟩ := by
  by_cases h0 : d = 0
  · subst h0
    have : ofUInt64 0 = ⟨[]⟩ := by simp [ofUInt64]
    rw [this]
    simp only [add]
    rw [addLoop_nil_right (0 :: t)]
    intro x hx
    rcases List.mem_cons.mp hx with h | h
    · rw [h]; exact BASE_pos
    · exact ht x h
  · have : ofUInt64 d = ⟨[d]⟩ := by
      simp only [ofUInt64]
      rw [if_pos (by omega)]
    rw [this]
    have h1 : addSum 0 d 0 = d := by
      simp only [addSum, add64, WORD_val, BASE_val] at hd ⊢
      omega
    have h2 : addCarry 0 d 0 = 0 := by
      simp [addCarry, h1]
    simp only [add, addLoop, List.headD_cons, List.tail_cons, h1, h2, addLoop_nil_right t ht]

theorem subLoop_spec :
    ∀ (xs ys : List Nat) (br : Nat), (∀ x ∈ xs, x < BASE) → (∀ y ∈ ys, y < BASE) → br ≤ 1 →
      ys.length ≤ xs.length → value ys + br ≤ value xs →
      (subLoop xs ys br).length = xs.length ∧ (∀ z ∈ subLoop xs ys br, z < BASE) ∧
        value (subLoop xs ys br) + value ys + br = value xs := by
  intro xs
  induction xs with
  | nil =>
    intro ys br _ _ _ hlen hle
    have hys : ys = [] := by
      cases ys with
      | nil => rfl
      | cons y ys => simp at hlen
    subst hys
    simp only [value_nil] at hle
    refine ⟨rfl, by simp [subLoop], ?_⟩
    simp only [subLoop, value_nil]
    omega
  | cons a xs ih =>
    intro ys br hxs hys hbr hlen hle
    have ha : a < BASE := hxs a (List.mem_cons_self _ _)
    have hxs1 : ∀ z ∈ xs, z < BASE := fun z hz => hxs z (List.mem_cons_of_mem _ hz)
    have key : ∀ (y : Nat) (ys1 : List Nat), y < BASE → (∀ z ∈ ys1, z < BASE) →
        ys1.length ≤ xs.length → y + BASE * value ys1 + br ≤ a + BASE * value xs →
        ys.headD 0 = y → ys.tail = ys1 → value ys = y + BASE * value ys1 →
        (subLoop (a :: xs) ys br).length = (a :: xs).length ∧
          (∀ z ∈ subLoop (a :: xs) ys br, z < BASE) ∧
          value (subLoop (a :: xs) ys br) + value ys + br = value (a :: xs) := by
      intro y ys1 hy hys1 hlen1 hle1 hhead htail hval
      rw [BASE_val] at ha hy hle1
      by_cases hcmp : a < add64 y br
      · have hcmp2 : a < y + br := by
          simp only [add64, WORD_val] at hcmp
          omega
        have hlimb : sub64 (sub64 (add64 BASE a) y) br = 4294967296 + a - y - br := by
          simp only [sub64, add64, WORD_val, BASE_val]
          omega
        obtain ⟨h1, h2, h3⟩ := ih ys1 1 hxs1 hys1 (by omega) hlen1 (by omega)
        have hunf : subLoop (a :: xs) ys br = (4294967296 + a - y - br) :: subLoop xs ys1 1 := by
          simp only [subLoop, hhead, htail, if_pos hcmp, hlimb]
        rw [hunf, hval]
        refine ⟨by simp [h1], ?_, ?_⟩
        · intro z hz
          rcases List.mem_cons.mp hz with h | h
          · rw [h, BASE_val]; omega
          · exact h2 z h
        · simp only [value_cons]
          rw [BASE_val]
          omega
      · have hcmp2 : ¬ a < y + br := by
          simp only [add64, WORD_val] at hcmp
          omega
        have hlimb : sub64 (sub64 a y) br = a - y - br := by
          simp only [sub64, WORD_val]
          omega
        obtain ⟨h1, h2, h3⟩ := ih ys1 0 hxs1 hys1 (by omega) hlen1 (by omega)
        have hunf : subLoop (a :: xs) ys br = (a - y - br) :: subLoop xs ys1 0 := by
          simp only [subLoop, hhead, htail, if_neg hcmp, hlimb]
        rw [hunf, hval]
        refine ⟨by simp [h1], ?_, ?_⟩
        · intro z hz
          rcases List.mem_cons.mp hz with h | h
          · rw [h, BASE_val]; omega
          · exact h2 z h
        · simp only [value_cons]
          rw [BASE_val]
          omega
    cases ys with
    | nil =>
      exact key 0 [] BASE_pos (by simp) (by simp)
        (by simpa [value] using hle) rfl rfl (by simp [value])
    | cons y ys1 =>
      exact key y ys1 (hys y (List.mem_cons_self _ _))
        (fun z hz => hys z (List.mem_cons_of_mem _ hz)) (by simpa using hlen)
        (by simpa [value_cons] using hle) rfl rfl rfl

theorem sub_spec (a b : List Nat) (ha : Canon a) (hb : Canon b) (hle : value b ≤ value a) :
    ∃ r, sub ⟨a⟩ ⟨b⟩ = .ok ⟨r⟩ ∧ Canon r ∧ value r + value b = value a := by
  have hlt : lt ⟨a⟩ ⟨b⟩ = false := by
    rw [canon_lt a b ha hb]
    simp
    omega
  have hlen : b.length ≤ a.length := by
    by_contra hne
    have := canon_length_lt a b ha hb (by omega)
    omega
  obtain ⟨h1, h2, h3⟩ := subLoop_spec a b 0 ha.2.1 hb.2.1 (by omega) hlen (by omega)
  have hne : subLoop a b 0 ≠ [] := by
    intro h
    rw [h] at h1
    have := ha.1
    cases a with
    | nil => exact this rfl
    | cons x xs => simp at h1
  refine ⟨strip (subLoop a b 0), ?_, canon_strip _ hne h2, ?_⟩
  · simp only [sub, hlt]
    rfl
  · rw [strip_value]
    omega


/-! ### Division -/

theorem ofUInt64_limbsOk (m : Nat) (hm : m < BASE) : limbsOk (ofUInt64 m) := by
  unfold limbsOk ofUInt64
  split <;> simp [hm]

theorem ofUInt64_value (m : Nat) : value (ofUInt64 m).data = m := by
  unfold ofUInt64
  split
  · simp [value]
  · simp only [value_nil]
    omega

theorem mul_digit (other : BigNum) (ho : Canon other.data) (m : Nat) (hm : m < BASE) :
    ∃ p, mul other (ofUInt64 m) = .ok p ∧ Canon p.data ∧ value p.data = value other.data * m := by
  obtain ⟨r, hr, hlen, hlimb, hval⟩ := mul_spec other (ofUInt64 m) ho.2.1 (ofUInt64_limbsOk m hm)
  have hne : r ≠ [] := by
    intro h
    rw [h] at hlen
    have := ho.1
    cases hd : other.data with
    | nil => exact this hd
    | cons x xs =>
      rw [hd] at hlen
      simp only [List.length_nil, List.length_cons] at hlen
      omega
  refine ⟨⟨strip r⟩, hr, canon_strip r hne hlimb, ?_⟩
  simp only [strip_value, hval, ofUInt64_value]

theorem divideSingleDigitLoop_spec (self other : BigNum) (hs : Canon self.data)
    (ho : Canon other.data) :
    ∀ (fuel low high : Nat), low ≤ high + 1 → high < BASE →
      (low = 0 ∨ value other.data * (low - 1) ≤ value self.data) →
      (high + 1 = BASE ∨ value self.data < value other.data * (high + 1)) →
      high + 1 - low < 2 ^ fuel →
      ∃ q, divideSingleDigitLoop self other fuel low high = .ok q ∧ q < BASE ∧
        value other.data * q ≤ value self.data ∧
        (q + 1 = BASE ∨ value self.data < value other.data * (q + 1)) := by
  have hexit : ∀ low high : Nat, low ≤ high + 1 → ¬ low ≤ high →
      (low = 0 ∨ value other.data * (low - 1) ≤ value self.data) →
      value other.data * high ≤ value self.data := by
    intro low high h1 h2 h3
    have hl : low = high + 1 := by omega
    subst hl
    rcases h3 with h | h
    · omega
    · simpa using h
  intro fuel
  induction fuel with
  | zero =>
    intro low high h1 h2 h3 h4 h5
    have hn : ¬ low ≤ high := by
      simp only [pow_zero] at h5
      omega
    exact ⟨high, by simp [divideSingleDigitLoop, hn], h2, hexit low high h1 hn h3, h4⟩
  | succ fuel ih =>
    intro low high h1 h2 h3 h4 h5
    by_cases hn : low ≤ high
    · have hmid : add64 low high / 2 = (low + high) / 2 := by
        simp only [add64, WORD_val]
        rw [BASE_val] at h2
        rw [Nat.mod_eq_of_lt (by omega)]
      have hmidlt : (low + high) / 2 < BASE := by
        rw [BASE_val] at h2 ⊢
        omega
      obtain ⟨p, hp, hpc, hpv⟩ := mul_digit other ho ((low + high) / 2) hmidlt
      have hle := canon_le p.data self.data hpc hs
      rw [pow_succ] at h5
      by_cases hc : value p.data ≤ value self.data
      · have hle2 : le p self = true := by
          have : le ⟨p.data⟩ ⟨self.data⟩ = true := by rw [hle]; simpa using hc
          exact this
        have hnext : add64 ((low + high) / 2) 1 = (low + high) / 2 + 1 := by
          simp only [add64, WORD_val]
          rw [BASE_val] at hmidlt
          rw [Nat.mod_eq_of_lt (by omega)]
        obtain ⟨q, hq, hq1, hq2, hq3⟩ := ih ((low + high) / 2 + 1) high (by omega) h2
          (Or.inr (by rw [Nat.add_sub_cancel, ← hpv]; exact hc)) h4 (by omega)
        refine ⟨q, ?_, hq1, hq2, hq3⟩
        simp only [divideSingleDigitLoop, if_pos hn, hmid, hp, hle2, if_true, hnext, hq]
      · have hle2 : le p self = false := by
          have : le ⟨p.data⟩ ⟨self.data⟩ = false := by rw [hle]; simpa using hc
          exact this
        have hmpos : (low + high) / 2 ≠ 0 := by
          intro h0
          rw [hpv, h0] at hc
          simp at hc
        have hnext : sub64 ((low + high) / 2) 1 = (low + high) / 2 - 1 := by
          simp only [sub64, WORD_val]
          rw [BASE_val] at hmidlt
          omega
        have hc2 : value self.data < value other.data * ((low + high) / 2 - 1 + 1) := by
          rw [Nat.sub_add_cancel (by omega), ← hpv]
          omega
        obtain ⟨q, hq, hq1, hq2, hq3⟩ := ih low ((low + high) / 2 - 1) (by omega) (by omega)
          h3 (Or.inr hc2) (by omega)
        refine ⟨q, ?_, hq1, hq2, hq3⟩
        simp only [divideSingleDigitLoop, if_pos hn, hmid, hp, hle2, hnext, hq]
        simp
    · exact ⟨high, by simp [divideSingleDigitLoop, hn], h2, hexit low high h1 hn h3, h4⟩

theorem divideSingleDigit_spec (self other : BigNum) (hs : Canon self.data)
    (ho : Canon other.data) (hbound : value self.data < value other.data * BASE) :
    ∃ q, divideSingleDigit self other = .ok q ∧ q < BASE ∧
      value other.data * q ≤ value self.data ∧
      value self.data < value other.data * (q + 1) := by
  obtain ⟨q, hq, hq1, hq2, hq3⟩ := divideSingleDigitLoop_spec self other hs ho 64 0 (BASE - 1)
    (by omega) (by rw [BASE_val]; omega) (Or.inl rfl)
    (Or.inl (by rw [BASE_val])) (by rw [BASE_val]; norm_num)
  refine ⟨q, hq, hq1, hq2, ?_⟩
  rcases hq3 with h | h
  · rw [h]; exact hbound
  · exact h

theorem shift_form (rem : List Nat) (hl : ∀ x ∈ rem, x < BASE) (hs : strip rem = rem) :
    ∃ t, strip (0 :: rem) = 0 :: t ∧ (∀ x ∈ t, x < BASE) ∧ value t = value rem ∧
      ∀ d, d < BASE → Canon (d :: t) := by
  cases rem with
  | nil =>
    refine ⟨[], strip_singleton 0, by simp, rfl, ?_⟩
    intro d hd
    exact ⟨by simp, by simpa using hd, strip_singleton d⟩
  | cons y ys =>
    by_cases h0 : y :: ys = [0]
    · refine ⟨[], ?_, by simp, ?_, ?_⟩
      · rw [strip_cons_cons, hs, if_pos h0]
      · rw [h0]; simp [value]
      · intro d hd
        exact ⟨by simp, by simpa using hd, strip_singleton d⟩
    · refine ⟨y :: ys, ?_, hl, rfl, ?_⟩
      · rw [strip_cons_cons, hs, if_neg h0]
      · intro d hd
        refine ⟨by simp, ?_, ?_⟩
        · intro x hx
          rcases List.mem_cons.mp hx with h | h
          · rw [h]; exact hd
          · exact hl x h
        · rw [strip_cons_cons, hs, if_neg h0]

theorem divLoop_spec (divisor : BigNum) (hd : Canon divisor.data) :
    ∀ (ds : List Nat) (rem : BigNum), (∀ x ∈ ds, x < BASE) → limbsOk rem →
      strip rem.data = rem.data → value rem.data < value divisor.data →
      ∃ qs r, divLoop divisor ds rem = .ok (qs, r) ∧ qs.length = ds.length ∧
        (∀ x ∈ qs, x < BASE) ∧
        value qs * value divisor.data + value r.data
          = value ds.reverse + BASE ^ ds.length * value rem.data ∧
        value r.data < value divisor.data := by
  intro ds
  induction ds with
  | nil =>
    intro rem _ _ _ hlt
    exact ⟨[], rem, rfl, rfl, by simp, by simp [value], hlt⟩
  | cons d ds ih =>
    intro rem hds hrl hrs hlt
    have hdl : d < BASE := hds d (List.mem_cons_self _ _)
    have hds1 : ∀ z ∈ ds, z < BASE := fun z hz => hds z (List.mem_cons_of_mem _ hz)
    obtain ⟨t, ht1, ht2, ht3, ht4⟩ := shift_form rem.data hrl hrs
    have hshift : mul rem (ofUInt64 BASE) = .ok ⟨0 :: t⟩ := by
      have := mul_base rem.data hrl
      rw [ht1] at this
      exact this
    have hadd : add ⟨0 :: t⟩ (ofUInt64 d) = ⟨d :: t⟩ := add_digit t d ht2 hdl
    have hc1 : Canon (d :: t) := ht4 d hdl
    have hv1 : value (d :: t) = d + BASE * value rem.data := by rw [value_cons, ht3]
    have hb1 : value (d :: t) < value divisor.data * BASE := by
      rw [hv1]
      have : BASE * (value rem.data + 1) ≤ BASE * value divisor.data :=
        Nat.mul_le_mul_left _ hlt
      rw [Nat.mul_comm (value divisor.data) BASE]
      rw [Nat.mul_add] at this
      omega
    obtain ⟨q, hq, hq1, hq2, hq3⟩ := divideSingleDigit_spec ⟨d :: t⟩ divisor hc1 hd hb1
    obtain ⟨p, hp, hpc, hpv⟩ := mul_digit divisor hd q hq1
    obtain ⟨r1, hr1, hr1c, hr1v⟩ := sub_spec (d :: t) p.data hc1 hpc (by rw [hpv]; exact hq2)
    have hr1lt : value r1 < value divisor.data := by
      rw [hpv] at hr1v
      rw [Nat.mul_add] at hq3
      simp only at hq3
      omega
    obtain ⟨qs, r, hrec, hlen, hlimb, hval, hrlt⟩ := ih ⟨r1⟩ hds1 hr1c.2.1 hr1c.2.2 hr1lt
    refine ⟨qs ++ [q], r, ?_, by simp [hlen], ?_, ?_, hrlt⟩
    · simp only [divLoop, hshift, hadd, hq, hp]
      have hsub : sub ⟨d :: t⟩ p = .ok ⟨r1⟩ := hr1
      simp only [hsub, hrec]
    · intro x hx
      rcases List.mem_append.mp hx with h | h
      · exact hlimb x h
      · simp only [List.mem_singleton] at h
        rw [h]; exact hq1
    · simp only [value_append, List.reverse_cons, value_cons, value_nil, List.length_reverse,
        List.length_cons, pow_succ, hlen, Nat.mul_zero, Nat.add_zero]
      simp only at hval hr1v
      rw [hpv, hv1] at hr1v
      have e1 : (value qs + BASE ^ ds.length * q) * value divisor.data + value r.data
          = (value qs * value divisor.data + value r.data)
            + BASE ^ ds.length * (value divisor.data * q) := by ring
      rw [e1, hval]
      have e2 : BASE ^ ds.length * value r1 + BASE ^ ds.length * (value divisor.data * q)
          = BASE ^ ds.length * (value r1 + value divisor.data * q) := by ring
      rw [Nat.add_assoc, e2, hr1v]
      ring

theorem div_spec (a b : BigNum) (ha : limbsOk a) (hb : limbsOk b) (hn : normalized b)
    (hpos : 0 < value b.data) :
    ∃ q, div a b = .ok q ∧ limbsOk q ∧ value q.data = value a.data / value b.data := by
  have hne : b.data ≠ [] := by
    intro h
    rw [h] at hpos
    simp [value] at hpos
  have hc : Canon b.data := canon_of_normalized b.data hne hb hn
  have hz : ofUInt64 0 = ⟨[]⟩ := by simp [ofUInt64]
  obtain ⟨qs, r, hdl, hlen, hlimb, hval, hrlt⟩ := divLoop_spec b hc a.data.reverse ⟨[]⟩
    (by simpa using ha) (by simp [limbsOk]) rfl (by simpa [value] using hpos)
  refine ⟨⟨strip qs⟩, ?_, fun x hx => hlimb x (strip_mem qs x hx), ?_⟩
  · have heq : eq b ⟨[]⟩ = false := by
      simp [eq, hne]
    simp only [div, hz, heq, hdl]
    rfl
  · simp only [strip_value]
    simp only [List.reverse_reverse, value_nil, Nat.mul_zero, Nat.add_zero] at hval
    rw [← hval, Nat.mul_comm]
    rw [Nat.mul_add_div hpos, Nat.div_eq_of_lt hrlt]
    rfl

/-! ### Evaluation of the sieve at `limit = 100` -/

theorem sqrt_100 : Nat.sqrt (toInt (ofUInt64 100)).toNat = 10 := by
  have h : (toInt (ofUInt64 100)).toNat = 100 := by decide
  rw [h]
  symm
  rw [Nat.eq_sqrt]
  norm_num

theorem small_primes_100 :
    small_primes 128 (ofUInt64 100) = .ok ([2, 3, 5, 7, 9].map ofUInt64) := by
  unfold small_primes
  rw [sqrt_100]
  rfl

/-! ### The claims -/

/-- C1: for all BigNum `a` and `b` whose limbs are below `2 ^ 32`, with `b` normalized and of
value greater than zero, `a / b` returns a value (it reports neither underflow nor
divide-by-zero), and the value of the result is the unique integer `q` with
`q * value b ≤ value a < (q + 1) * value b`.  The dividend need not be normalized. -/
theorem div_exact (a b : BigNum) (ha : limbsOk a) (hb : limbsOk b) (hnb : normalized b)
    (hpos : 0 < value b.data) :
    ∃ q, div a b = .ok q ∧
      value q.data * value b.data ≤ value a.data ∧
      value a.data < (value q.data + 1) * value b.data ∧
      ∀ k : Nat, k * value b.data ≤ value a.data → value a.data < (k + 1) * value b.data →
        k = value q.data := by
  obtain ⟨q, hq, _, hv⟩ := div_spec a b ha hb hnb hpos
  refine ⟨q, hq, ?_, ?_, ?_⟩
  · rw [hv]
    exact Nat.div_mul_le_self _ _
  · rw [hv, Nat.mul_comm]
    exact Nat.lt_mul_div_succ (value a.data) hpos
  · intro k h1 h2
    rw [hv]
    symm
    apply Nat.div_eq_of_lt_le
    · exact h1
    · exact h2

/-- Witness of C1: the three-limb number `7 * 2 ^ 64 + 6 * 2 ^ 32 + 5` divided by the two-limb
number `3 * 2 ^ 32 + 9`. -/
theorem div_exact_witness :
    limbsOk ⟨[5, 6, 7]⟩ ∧ limbsOk ⟨[9, 3]⟩ ∧ normalized ⟨[9, 3]⟩ ∧
    0 < value (BigNum.mk [9, 3]).data ∧
    ∃ q, div ⟨[5, 6, 7]⟩ ⟨[9, 3]⟩ = .ok q ∧
      value q.data * value (BigNum.mk [9, 3]).data ≤ value (BigNum.mk [5, 6, 7]).data ∧
      value (BigNum.mk [5, 6, 7]).data < (value q.data + 1) * value (BigNum.mk [9, 3]).data ∧
      ∀ k : Nat, k * value (BigNum.mk [9, 3]).data ≤ value (BigNum.mk [5, 6, 7]).data →
        value (BigNum.mk [5, 6, 7]).data < (k + 1) * value (BigNum.mk [9, 3]).data →
        k = value q.data :=
  ⟨by decide, by decide, by decide, by decide,
    div_exact ⟨[5, 6, 7]⟩ ⟨[9, 3]⟩ (by decide) (by decide) (by decide) (by decide)⟩

/-- C2: the expression `(a / c) * c + a % c` does not evaluate to `a` for every `a` and
`c != 0`.  At `a = BigNum(0)`, `c = BigNum(3)` the quotient is the empty BigNum, the product
`(a / c) * c` is the single limb `0`, and `a % c` throws the underflow error.  At `a = 2 ^ 32`
(limbs `[0, 1]`), `c = BigNum(3)` every operation returns, but the sum is the single limb
`2 ^ 32`, which `operator==` tells apart from `a`. -/
theorem div_mul_add_mod_at_zero :
    div (ofUInt64 0) (ofUInt64 3) = .ok ⟨[]⟩ ∧
    mul ⟨[]⟩ (ofUInt64 3) = .ok ⟨[0]⟩ ∧
    mod (ofUInt64 0) (ofUInt64 3) = .error .underflow ∧
    div ⟨[0, 1]⟩ (ofUInt64 3) = .ok ⟨[1431655765]⟩ ∧
    mul ⟨[1431655765]⟩ (ofUInt64 3) = .ok ⟨[4294967295]⟩ ∧
    mod ⟨[0, 1]⟩ (ofUInt64 3) = .ok ⟨[1]⟩ ∧
    add ⟨[4294967295]⟩ ⟨[1]⟩ = ⟨[4294967296]⟩ ∧
    eq ⟨[4294967296]⟩ ⟨[0, 1]⟩ = false :=
  ⟨rfl, rfl, rfl, rfl, rfl, rfl, rfl, rfl⟩

/-- C3: for `limit = 100` the workers write `0` and `1` besides the 25 primes below 100, for
each of the thread counts 1, 2, 4 and 10: the buffers, taken in the order in which the workers
are spawned, hold 27 numbers. -/
theorem sieve_100_writes_zero_and_one :
    (generate_primes 128 (ofUInt64 100) 1).map List.flatten = .ok
      ([0, 1, 2, 3, 5, 7, 11, 13, 17, 19, 23, 29, 31, 37, 41, 43, 47, 53, 59, 61, 67, 71, 73,
        79, 83, 89, 97].map ofUInt64) ∧
    (generate_primes 128 (ofUInt64 100) 2).map List.flatten = .ok
      ([0, 1, 2, 3, 5, 7, 11, 13, 17, 19, 23, 29, 31, 37, 41, 43, 47, 53, 59, 61, 67, 71, 73,
        79, 83, 89, 97].map ofUInt64) ∧
    (generate_primes 128 (ofUInt64 100) 4).map List.flatten = .ok
      ([0, 1, 2, 3, 5, 7, 11, 13, 17, 19, 23, 29, 31, 37, 41, 43, 47, 53, 59, 61, 67, 71, 73,
        79, 83, 89, 97].map ofUInt64) ∧
    (generate_primes 128 (ofUInt64 100) 10).map List.flatten = .ok
      ([0, 1, 2, 3, 5, 7, 11, 13, 17, 19, 23, 29, 31, 37, 41, 43, 47, 53, 59, 61, 67, 71, 73,
        79, 83, 89, 97].map ofUInt64) := by
  unfold generate_primes
  rw [small_primes_100]
  exact ⟨rfl, rfl, rfl, rfl⟩

/-- C4: for `limit = 100` and `num_threads = 3` the driver hands out four segments, not three,
and the last one, `(99, 100)`, contains `100`, which is not below `limit`. -/
theorem segments_100_3 :
    segments 16 (ofUInt64 100) 3 = .ok
      [(ofUInt64 0, ofUInt64 32), (ofUInt64 33, ofUInt64 65), (ofUInt64 66, ofUInt64 98),
        (ofUInt64 99, ofUInt64 100)] :=
  rfl

/-- C5: at `a = BigNum(0)`, `b = BigNum(5)` the difference `(a + b) - b` is returned without
underflow, but it is the single limb `0`, which `operator==` tells apart from `BigNum(0)`. -/
theorem add_sub_at_zero :
    sub (add (ofUInt64 0) (ofUInt64 5)) (ofUInt64 5) = .ok ⟨[0]⟩ ∧
    eq ⟨[0]⟩ (ofUInt64 0) = false :=
  ⟨rfl, rfl⟩

/-- C6: at `a = BigNum(4294967295)`, `b = BigNum(1)`, both with limbs below `2 ^ 32`, the sum
`a + b` is the single limb `4294967296 = 2 ^ 32`: the carry of `operator+` is taken at
`2 ^ 64`, not at `BASE`. -/
theorem add_limb_reaches_base :
    limbsOk (ofUInt64 4294967295) ∧ limbsOk (ofUInt64 1) ∧
    add (ofUInt64 4294967295) (ofUInt64 1) = ⟨[4294967296]⟩ ∧
    ¬ limbsOk (add (ofUInt64 4294967295) (ofUInt64 1)) := by
  decide

/-- C7: at `a = BigNum(2147483648)` (the limb `2 ^ 31`) and `n = 1` the result of `a << 1` has
the limbs `[2 ^ 32, 1]`, whose value is `2 ^ 33`, while `value a * 2 ^ 1` is `2 ^ 32`: the bit
carried into the next limb is also left in the shifted limb. -/
theorem shl_counts_carry_twice :
    limbsOk (ofUInt64 2147483648) ∧
    shl (ofUInt64 2147483648) 1 = ⟨[4294967296, 1]⟩ ∧
    value (shl (ofUInt64 2147483648) 1).data = 2 ^ 33 ∧
    value (ofUInt64 2147483648).data * 2 ^ 1 = 2 ^ 32 := by
  decide

/-- C8: for all BigNum `a` and `b` whose limbs are below `2 ^ 32` (zero included), both `a * b`
and `b * a` return, and the two results are equal under `operator==`. -/
theorem mul_commutes (a b : BigNum) (ha : limbsOk a) (hb : limbsOk b) :
    ∃ p q, mul a b = .ok p ∧ mul b a = .ok q ∧ eq p q = true := by
  obtain ⟨r1, h1, hl1, hb1, hv1⟩ := mul_spec a b ha hb
  obtain ⟨r2, h2, hl2, hb2, hv2⟩ := mul_spec b a hb ha
  have hr : r1 = r2 :=
    value_inj r1 r2 (by omega) hb1 hb2 (by rw [hv1, hv2, Nat.mul_comm])
  refine ⟨⟨strip r1⟩, ⟨strip r2⟩, h1, h2, ?_⟩
  simp [eq, hr]

/-- Witness of C8: a three-limb and a two-limb operand. -/
theorem mul_commutes_witness :
    limbsOk ⟨[4294967295, 0, 7]⟩ ∧ limbsOk ⟨[9, 4294967295]⟩ ∧
    ∃ p q, mul ⟨[4294967295, 0, 7]⟩ ⟨[9, 4294967295]⟩ = .ok p ∧
      mul ⟨[9, 4294967295]⟩ ⟨[4294967295, 0, 7]⟩ = .ok q ∧ eq p q = true :=
  ⟨by decide, by decide, mul_commutes ⟨[4294967295, 0, 7]⟩ ⟨[9, 4294967295]⟩ (by decide) (by decide)⟩

/-- C9: at `a = BigNum(0)` the product `a * BigNum(1)` is the single limb `0`, which
`operator==` tells apart from `BigNum(0)`, the BigNum without limbs. -/
theorem mul_one_at_zero :
    mul (ofUInt64 0) (ofUInt64 1) = .ok ⟨[0]⟩ ∧ eq ⟨[0]⟩ (ofUInt64 0) = false :=
  ⟨rfl, rfl⟩

/-- C10: for all BigNum `a` and `b`, whatever their limbs, exactly one of `a < b`, `a == b`
and `a > b` is true. -/
theorem comparison_totality (a b : BigNum) :
    (lt a b = true ∧ eq a b = false ∧ gt a b = false) ∨
    (lt a b = false ∧ eq a b = true ∧ gt a b = false) ∨
    (lt a b = false ∧ eq a b = false ∧ gt a b = true) := by
  have h := lt_false_of_eq a b
  unfold gt le
  cases hl : lt a b <;> cases he : eq a b <;> simp_all

/-! ### More claims -/

theorem lt_of_empty (b : List Nat) (hb : b ≠ []) : lt ⟨[]⟩ ⟨b⟩ = true := by
  cases b with
  | nil => exact absurd rfl hb
  | cons y ys => simp [lt]

theorem lt_empty_right (a : List Nat) : lt ⟨a⟩ ⟨[]⟩ = false := by
  cases a with
  | nil => simp [lt, ltLoop]
  | cons x xs => simp [lt]

theorem value_pos_of_normalized (l : List Nat) (hne : l ≠ []) (hn : l.getLast? ≠ some 0) :
    0 < value l := by
  induction l with
  | nil => exact absurd rfl hne
  | cons x xs ih =>
    cases xs with
    | nil =>
      have : x ≠ 0 := by
        intro h
        apply hn
        rw [h]
        rfl
      simp only [value_cons, value_nil]
      omega
    | cons y ys =>
      have h2 : (y :: ys).getLast? ≠ some 0 := by
        simpa [List.getLast?_cons_cons] using hn
      have := ih (by simp) h2
      have hm : BASE * 1 ≤ BASE * value (y :: ys) := Nat.mul_le_mul_left _ this
      rw [value_cons]
      have := BASE_pos
      omega

theorem normalized_lt (a b : BigNum) (ha : limbsOk a) (hb : limbsOk b) (hna : normalized a)
    (hnb : normalized b) : lt a b = decide (value a.data < value b.data) := by
  obtain ⟨a⟩ := a
  obtain ⟨b⟩ := b
  simp only [limbsOk, normalized] at ha hb hna hnb ⊢
  by_cases hae : a = []
  · subst hae
    by_cases hbe : b = []
    · subst hbe
      simp [lt, ltLoop, value]
    · have := value_pos_of_normalized b hbe hnb
      rw [lt_of_empty b hbe]
      simp [value, this]
  · by_cases hbe : b = []
    · subst hbe
      rw [lt_empty_right]
      simp [value]
    · exact canon_lt a b (canon_of_normalized a hae ha hna) (canon_of_normalized b hbe hb hnb)

theorem normalized_length_le (a b : BigNum) (ha : limbsOk a) (hb : limbsOk b)
    (hna : normalized a) (hnb : normalized b) (hle : value b.data ≤ value a.data) :
    b.data.length ≤ a.data.length := by
  obtain ⟨a⟩ := a
  obtain ⟨b⟩ := b
  simp only [limbsOk, normalized] at ha hb hna hnb hle ⊢
  by_cases hbe : b = []
  · subst hbe
    simp
  · by_cases hae : a = []
    · subst hae
      have := value_pos_of_normalized b hbe hnb
      simp [value] at hle
      omega
    · by_contra hne
      have := canon_length_lt a b (canon_of_normalized a hae ha hna)
        (canon_of_normalized b hbe hb hnb) (by omega)
      omega

/-- C11: for all normalized BigNum `a` and `b` with limbs below `2 ^ 32` (zero is the empty
sequence), `a - b` throws the underflow error exactly when `value a < value b`, and otherwise
returns a BigNum of value `value a - value b`; `BigNum(3) - BigNum(5)` throws and
`BigNum(5) - BigNum(3)` is equal to `BigNum(2)` under `operator==`. -/
theorem sub_underflow_iff (a b : BigNum) (ha : limbsOk a) (hb : limbsOk b) (hna : normalized a)
    (hnb : normalized b) :
    (sub a b = .error .underflow ↔ value a.data < value b.data) ∧
    (value b.data ≤ value a.data →
      ∃ r, sub a b = .ok r ∧ value r.data = value a.data - value b.data) ∧
    sub (ofUInt64 3) (ofUInt64 5) = .error .underflow ∧
    ∃ r, sub (ofUInt64 5) (ofUInt64 3) = .ok r ∧ eq r (ofUInt64 2) = true := by
  have hlt := normalized_lt a b ha hb hna hnb
  have hok : value b.data ≤ value a.data →
      ∃ r, sub a b = .ok r ∧ value r.data = value a.data - value b.data := by
    intro hle
    have hl : lt a b = false := by
      rw [hlt]
      simp
      omega
    have hlen := normalized_length_le a b ha hb hna hnb hle
    obtain ⟨_, _, h3⟩ := subLoop_spec a.data b.data 0 ha hb (by omega) hlen (by omega)
    refine ⟨⟨strip (subLoop a.data b.data 0)⟩, by simp [sub, hl], ?_⟩
    rw [strip_value]
    omega
  refine ⟨⟨?_, ?_⟩, hok, rfl, ⟨⟨[2]⟩, rfl, rfl⟩⟩
  · intro h
    by_contra hn
    obtain ⟨r, hr, _⟩ := hok (by omega)
    rw [hr] at h
    cases h
  · intro h
    have hl : lt a b = true := by
      rw [hlt]
      simpa using h
    simp [sub, hl]

/-- Witness of C11: a two-limb minuend and a one-limb subtrahend. -/
theorem sub_underflow_iff_witness :
    limbsOk ⟨[1, 2]⟩ ∧ limbsOk ⟨[7]⟩ ∧ normalized ⟨[1, 2]⟩ ∧ normalized ⟨[7]⟩ ∧
    (sub ⟨[1, 2]⟩ ⟨[7]⟩ = .error .underflow ↔
      value (BigNum.mk [1, 2]).data < value (BigNum.mk [7]).data) ∧
    (value (BigNum.mk [7]).data ≤ value (BigNum.mk [1, 2]).data →
      ∃ r, sub ⟨[1, 2]⟩ ⟨[7]⟩ = .ok r ∧
        value r.data = value (BigNum.mk [1, 2]).data - value (BigNum.mk [7]).data) ∧
    sub (ofUInt64 3) (ofUInt64 5) = .error .underflow ∧
    ∃ r, sub (ofUInt64 5) (ofUInt64 3) = .ok r ∧ eq r (ofUInt64 2) = true :=
  ⟨by decide, by decide, by decide, by decide,
    sub_underflow_iff ⟨[1, 2]⟩ ⟨[7]⟩ (by decide) (by decide) (by decide) (by decide)⟩

/-- C12: for every BigNum `a`, both `a / BigNum(0)` and `a % BigNum(0)` fail with the
divide-by-zero error, and with no other one. -/
theorem div_mod_by_zero (a : BigNum) :
    div a (ofUInt64 0) = .error .divideByZero ∧ mod a (ofUInt64 0) = .error .divideByZero := by
  have h : div a (ofUInt64 0) = .error .divideByZero := by
    simp [div, eq, ofUInt64]
  exact ⟨h, by simp [mod, h]⟩

/-- C13: a zero that an operation returns is the single limb `0`, and dividing by it does not
throw: `BigNum(5) - BigNum(5)`, `BigNum(5) * BigNum(0)`, `BigNum(0) << 32` and the parse of
`"0"` all have the limbs `[0]`; `BigNum(7) / z` then returns `4294967295` and `BigNum(7) % z`
returns `7`. -/
theorem div_by_computed_zero :
    sub (ofUInt64 5) (ofUInt64 5) = .ok ⟨[0]⟩ ∧
    mul (ofUInt64 5) (ofUInt64 0) = .ok ⟨[0]⟩ ∧
    shl (ofUInt64 0) 32 = ⟨[0]⟩ ∧
    fromString "0" = .ok ⟨[0]⟩ ∧
    value (BigNum.mk [0]).data = 0 ∧
    div (ofUInt64 7) ⟨[0]⟩ = .ok ⟨[4294967295]⟩ ∧
    mod (ofUInt64 7) ⟨[0]⟩ = .ok ⟨[7]⟩ :=
  ⟨rfl, rfl, rfl, rfl, rfl, rfl, rfl⟩

/-- C14: at `a = BigNum(0)`, `b = BigNum(7)`, both normalized and `b` of value `7`, the
remainder `a % b` throws the underflow error. -/
theorem mod_zero_dividend :
    limbsOk (ofUInt64 0) ∧ normalized (ofUInt64 0) ∧ limbsOk (ofUInt64 7) ∧
    normalized (ofUInt64 7) ∧ 0 < value (ofUInt64 7).data ∧
    mod (ofUInt64 0) (ofUInt64 7) = .error .underflow := by
  refine ⟨by decide, by decide, by decide, by decide, by decide, rfl⟩

/-- C15: at `v = 0` the string of `BigNum(0)` is `"0"`, and parsing `"0"` gives the single
limb `0`, which `operator==` tells apart from `BigNum(0)`.  At `v = 2 ^ 32` (limbs `[0, 1]`)
the string is `"10000000000"`, whose parse has the value `10 ^ 10`. -/
theorem parse_toString_at_zero :
    toString (ofUInt64 0) = "0" ∧
    fromString "0" = .ok ⟨[0]⟩ ∧
    eq ⟨[0]⟩ (ofUInt64 0) = false ∧
    value (BigNum.mk [0, 1]).data = 2 ^ 32 ∧
    toString ⟨[0, 1]⟩ = "10000000000" ∧
    fromString "10000000000" = .ok ⟨[1410065408, 2]⟩ ∧
    value (BigNum.mk [1410065408, 2]).data = 10 ^ 10 :=
  ⟨rfl, rfl, rfl, rfl, rfl, rfl, rfl⟩

/-- C17: for `limit = 100` the list `small_primes` is `[2, 3, 5, 7, 9]`: the test
`i % prime == BigNum(0)` compares the single limb `0` that `9 % 3` returns with the BigNum
without limbs, so `9` is kept although it is not prime. -/
theorem small_primes_100_keeps_nine :
    small_primes 128 (ofUInt64 100) = .ok ([2, 3, 5, 7, 9].map ofUInt64) ∧
    mod (ofUInt64 9) (ofUInt64 3) = .ok ⟨[0]⟩ ∧
    eq ⟨[0]⟩ (ofUInt64 0) = false ∧
    ¬ Nat.Prime 9 :=
  ⟨small_primes_100, rfl, rfl, by norm_num⟩

/-- C19: for `limit = 5` and `num_threads = 7` the segment size `5 / 7` is the single limb `0`,
and the first pass of the segment loop throws the underflow error from `0 + 0 - 1`, whatever
the iteration budget: no segment is produced and the loop is not left in the regular way. -/
theorem segments_more_threads_than_limit :
    div (ofUInt64 5) (ofUInt64 7) = .ok ⟨[0]⟩ ∧
    ∀ fuel, segments (fuel + 1) (ofUInt64 5) 7 = .error .underflow :=
  ⟨rfl, fun _ => rfl⟩

/-- C20: at `a = b = 2 ^ 64 - 1` with carry-in `1` the sum `a + b + 1` is `2 ^ 65 - 1`, at
least `2 ^ 64`, and the carry computed by `operator+` is `0`.  The two-limb numbers
`(BigNum(2 ^ 64 - 1) << 32) + BigNum(2 ^ 64 - 1)` and `(BigNum(2 ^ 64 - 1) << 32) + BigNum(1)`
reach that case in limb 1, and their sum has two limbs: the carry out of limb 1 is dropped. -/
theorem carry_lost_at_max :
    addSum 18446744073709551615 18446744073709551615 1 = 18446744073709551615 ∧
    addCarry 18446744073709551615 18446744073709551615 1 = 0 ∧
    18446744073709551615 + 18446744073709551615 + 1 ≥ 2 ^ 64 ∧
    add (shl (ofUInt64 18446744073709551615) 32) (ofUInt64 18446744073709551615)
      = ⟨[18446744073709551615, 18446744073709551615]⟩ ∧
    add (shl (ofUInt64 18446744073709551615) 32) (ofUInt64 1)
      = ⟨[1, 18446744073709551615]⟩ ∧
    add ⟨[18446744073709551615, 18446744073709551615]⟩ ⟨[1, 18446744073709551615]⟩
      = ⟨[0, 18446744073709551615]⟩ := by
  decide

/-! ### Single limbs -/

theorem canon_single (l : List Nat) (hc : Canon l) (hv : value l < BASE) : l = [value l] := by
  obtain ⟨hne, _, hs⟩ := hc
  cases l with
  | nil => exact absurd rfl hne
  | cons x xs =>
    cases xs with
    | nil => simp [value]
    | cons y ys =>
      have h1 := strip_fixed_lower (x :: y :: ys) hs (by simp)
      have h2 : BASE ^ 1 ≤ BASE ^ ((x :: y :: ys).length - 1) :=
        Nat.pow_le_pow_right BASE_pos (by simp)
      rw [pow_one] at h2
      omega

theorem add_single (x y : Nat) (h : x + y < WORD) : add ⟨[x]⟩ ⟨[y]⟩ = ⟨[x + y]⟩ := by
  have h1 : addSum x y 0 = x + y := by
    simp only [addSum, add64, WORD_val] at h ⊢
    omega
  have h2 : addCarry x y 0 = 0 := by
    simp only [addCarry, h1]
    rw [if_neg]
    omega
  simp [add, addLoop, addTail, h1, h2]

theorem add_empty_left (y : Nat) (h : y < WORD) : add ⟨[]⟩ ⟨[y]⟩ = ⟨[y]⟩ := by
  have h1 : addSum 0 y 0 = y := by
    simp only [addSum, add64, WORD_val] at h ⊢
    omega
  have h2 : addCarry 0 y 0 = 0 := by
    simp [addCarry, h1]
  simp [add, addLoop, addTail, h1, h2]

theorem add_empty_right (x : Nat) (h : x < WORD) : add ⟨[x]⟩ ⟨[]⟩ = ⟨[x]⟩ := by
  have h1 : addSum x 0 0 = x := by
    simp only [addSum, add64, WORD_val] at h ⊢
    omega
  have h2 : addCarry x 0 0 = 0 := by
    simp [addCarry, h1]
  simp [add, addLoop, addTail, h1, h2]

/-! ### Parsing a decimal numeral -/

theorem digitOf_digitChar (d : Nat) (hd : d < 10) : digitOf (Nat.digitChar d) = d := by
  interval_cases d <;> rfl

theorem toDigitsCore_digits (fuel : Nat) :
    ∀ (n : Nat) (ds : List Char), 0 < n → n < fuel →
      Nat.toDigitsCore 10 fuel n ds = ((Nat.digits 10 n).map Nat.digitChar).reverse ++ ds := by
  induction fuel with
  | zero => intro n ds _ h; omega
  | succ fuel ih =>
    intro n ds hpos hlt
    have hd : Nat.digits 10 n = (n % 10) :: Nat.digits 10 (n / 10) :=
      Nat.digits_def' (by omega) hpos
    rw [hd]
    simp only [Nat.toDigitsCore]
    by_cases h0 : n / 10 = 0
    · rw [if_pos h0, h0]
      simp
    · rw [if_neg h0, ih (n / 10) _ (by omega) (by omega)]
      simp

theorem repr_data_reverse (v : Nat) (hv : 0 < v) :
    (Nat.repr v).data.reverse = (Nat.digits 10 v).map Nat.digitChar := by
  have : (Nat.repr v).data = Nat.toDigits 10 v := rfl
  rw [this, Nat.toDigits, toDigitsCore_digits (v + 1) v [] hv (by omega)]
  simp

theorem fromStringLoop_digits :
    ∀ (D : List Nat) (k r : Nat) (R base : BigNum), (∀ d ∈ D, d < 10) →
      Canon base.data → value base.data = 10 ^ k →
      (R.data = [r] ∨ (R.data = [] ∧ r = 0)) →
      r + 10 ^ k * Nat.ofDigits 10 D < BASE →
      ∃ R1, fromStringLoop (D.map Nat.digitChar) R base = .ok R1 ∧
        (R1.data = [r + 10 ^ k * Nat.ofDigits 10 D] ∨
          (R1.data = [] ∧ r + 10 ^ k * Nat.ofDigits 10 D = 0)) := by
  intro D
  induction D with
  | nil =>
    intro k r R base _ _ _ hR _
    refine ⟨R, rfl, ?_⟩
    simpa [Nat.ofDigits] using hR
  | cons d D ih =>
    intro k r R base hD hbc hbv hR hbound
    have hd : d < 10 := hD d (List.mem_cons_self _ _)
    have hD1 : ∀ z ∈ D, z < 10 := fun z hz => hD z (List.mem_cons_of_mem _ hz)
    have hof : Nat.ofDigits 10 (d :: D) = d + 10 * Nat.ofDigits 10 D := by
      simp [Nat.ofDigits_cons]
    rw [hof] at hbound ⊢
    have hexp : 10 ^ k * (d + 10 * Nat.ofDigits 10 D)
        = 10 ^ k * d + 10 ^ (k + 1) * Nat.ofDigits 10 D := by
      rw [pow_succ]; ring
    rw [hexp] at hbound ⊢
    obtain ⟨p, hp, hpc, hpv⟩ := mul_digit base hbc d (by rw [BASE_val]; omega)
    obtain ⟨b1, hb1, hb1c, hb1v⟩ := mul_digit base hbc 10 (by rw [BASE_val]; omega)
    rw [hbv] at hpv hb1v
    have hpd : p.data = [10 ^ k * d] := by
      have := canon_single p.data hpc (by rw [hpv]; omega)
      rw [hpv] at this
      exact this
    have hadd : (add R p).data = [r + 10 ^ k * d] := by
      obtain ⟨R⟩ := R
      obtain ⟨p⟩ := p
      simp only at hR hpd
      subst hpd
      rcases hR with h | ⟨h, h0⟩
      · subst h
        rw [add_single _ _ (by rw [BASE_val] at hbound; rw [WORD_val]; omega)]
      · subst h
        subst h0
        rw [add_empty_left _ (by rw [BASE_val] at hbound; rw [WORD_val]; omega)]
        simp
    obtain ⟨R1, hR1, hR1v⟩ := ih (k + 1) (r + 10 ^ k * d) (add R p) b1 hD1 hb1c
      (by rw [hb1v, pow_succ]) (Or.inl hadd) (by omega)
    refine ⟨R1, ?_, ?_⟩
    · simp only [List.map_cons, fromStringLoop, digitOf_digitChar d hd, hp, hb1, hR1]
    · rw [← Nat.add_assoc]
      exact hR1v

/-- C16: for every `v` with `0 ≤ v < 2 ^ 31`, parsing the decimal numeral of `v` returns a
BigNum whose `toInt` is `v`. -/
theorem parse_toInt (v : Nat) (hv : v < 2 ^ 31) :
    ∃ r, fromString (Nat.repr v) = .ok r ∧ toInt r = (v : Int) := by
  by_cases h0 : v = 0
  · subst h0
    exact ⟨⟨[0]⟩, rfl, rfl⟩
  · have hpos : 0 < v := by omega
    have hone : ofUInt64 1 = ⟨[1]⟩ := rfl
    have hzero : ofUInt64 0 = ⟨[]⟩ := rfl
    have hc1 : Canon (BigNum.mk [1]).data :=
      ⟨by simp, by simp [BASE_val], strip_singleton 1⟩
    obtain ⟨R1, hR1, hR1v⟩ := fromStringLoop_digits (Nat.digits 10 v) 0 0 ⟨[]⟩ ⟨[1]⟩
      (fun d hd => Nat.digits_lt_base (by omega) hd) hc1 (by simp [value])
      (Or.inr ⟨rfl, rfl⟩)
      (by rw [Nat.ofDigits_digits, BASE_val]; omega)
    rw [Nat.ofDigits_digits] at hR1v
    simp only [pow_zero, Nat.one_mul, Nat.zero_add] at hR1v
    refine ⟨R1, ?_, ?_⟩
    · rw [fromString, repr_data_reverse v hpos, hone, hzero]
      exact hR1
    · rcases hR1v with h | ⟨_, h⟩
      · simp only [toInt, h]
        have h1 : v % 2 ^ 32 = v := Nat.mod_eq_of_lt (by omega)
        rw [h1, if_pos hv]
      · omega

/-- Witness of C16: the numeral `"2147483647"` of the largest `int`. -/
theorem parse_toInt_witness :
    (2147483647 : Nat) < 2 ^ 31 ∧
    ∃ r, fromString (Nat.repr 2147483647) = .ok r ∧ toInt r = ((2147483647 : Nat) : Int) :=
  ⟨by decide, parse_toInt 2147483647 (by decide)⟩

/-! ### The bit vector of the sieve -/

theorem and_two_pow_bne (x i : Nat) : (x &&& 2 ^ i != 0) = x.testBit i := by
  have h : x &&& 2 ^ i = if x.testBit i then 2 ^ i else 0 := by
    apply Nat.eq_of_testBit_eq
    intro j
    rw [Nat.testBit_and, Nat.testBit_two_pow]
    by_cases hij : i = j
    · subst hij
      cases hx : x.testBit i <;> simp
    · cases hx : x.testBit i <;> simp [hij, Nat.testBit_two_pow]
  rw [h]
  cases hx : x.testBit i
  · simp
  · have : 2 ^ i ≠ 0 := by positivity
    simp [this]

theorem mask_testBit : ∀ k, k < 8 → ∀ i, i < 8 →
    (255 - 2 ^ k).testBit i = decide (i ≠ k) := by
  decide

theorem bitAt_set (bits : List Nat) (k j : Nat) (hk : k / 8 < bits.length) :
    bitAt (bits.set (k / 8) (bits.getD (k / 8) 0 &&& (255 - 2 ^ (k % 8)))) j
      = (bitAt bits j && decide (j ≠ k)) := by
  unfold bitAt
  by_cases hq : j / 8 = k / 8
  · have hget : (bits.set (k / 8) (bits.getD (k / 8) 0 &&& (255 - 2 ^ (k % 8)))).getD (j / 8) 0
        = bits.getD (k / 8) 0 &&& (255 - 2 ^ (k % 8)) := by
      rw [hq]
      simp [List.getElem?_set, hk]
    rw [hget, hq, and_two_pow_bne, and_two_pow_bne, Nat.testBit_and,
      mask_testBit (k % 8) (Nat.mod_lt _ (by omega)) (j % 8) (Nat.mod_lt _ (by omega))]
    have : (j % 8 ≠ k % 8) ↔ (j ≠ k) := by omega
    simp only [this]
  · have hget : (bits.set (k / 8) (bits.getD (k / 8) 0 &&& (255 - 2 ^ (k % 8)))).getD (j / 8) 0
        = bits.getD (j / 8) 0 := by
      simp [List.getElem?_set, Ne.symm hq]
    have hne : j ≠ k := fun h => hq (by rw [h])
    rw [hget]
    simp [hne]

theorem clearBit_spec (bits : List Nat) (k : Nat) (hk : k / 8 < bits.length) :
    ∃ bits1, clearBit bits (k : Int) = .ok bits1 ∧ bits1.length = bits.length ∧
      ∀ j, bitAt bits1 j = (bitAt bits j && decide (j ≠ k)) := by
  refine ⟨bits.set (k / 8) (bits.getD (k / 8) 0 &&& (255 - 2 ^ (k % 8))), ?_, by simp, ?_⟩
  · simp only [clearBit, Int.toNat_ofNat]
    rw [if_pos ⟨Int.ofNat_nonneg k, hk⟩]
  · intro j
    exact bitAt_set bits k j hk

theorem testBit_spec (bits : List Nat) (k : Nat) (hk : k / 8 < bits.length) :
    testBit bits (k : Int) = .ok (bitAt bits k) := by
  simp only [testBit, Int.toNat_ofNat, bitAt]
  rw [if_pos ⟨Int.ofNat_nonneg k, hk⟩]

theorem bitAt_replicate (m k : Nat) (hk : k / 8 < m) : bitAt (List.replicate m 255) k = true := by
  unfold bitAt
  have hget : (List.replicate m 255).getD (k / 8) 0 = 255 := by
    simp [List.getElem?_replicate, hk]
  rw [hget, and_two_pow_bne]
  have : ∀ i, i < 8 → (255 : Nat).testBit i = true := by decide
  exact this (k % 8) (Nat.mod_lt _ (by omega))

/-! ### Arithmetic on single limbs -/

theorem ofUInt64_pos (x : Nat) (hx : 0 < x) : ofUInt64 x = ⟨[x]⟩ := by
  simp [ofUInt64, hx]

theorem canon_singleton (x : Nat) (hx : x < BASE) : Canon [x] :=
  ⟨by simp, by simpa using hx, strip_singleton x⟩

theorem lt_single (x y : Nat) : lt ⟨[x]⟩ ⟨[y]⟩ = decide (x < y) := by
  by_cases h : x = y
  · subst h
    simp [lt, ltLoop]
  · simp [lt, ltLoop, h]

theorem le_single (x y : Nat) : le ⟨[x]⟩ ⟨[y]⟩ = decide (x ≤ y) := by
  simp only [le, lt_single, eq]
  by_cases h : x < y
  · have : x ≤ y := by omega
    simp [h, this]
  · by_cases h2 : x = y
    · simp [h2]
    · have : ¬ x ≤ y := by omega
      simp [h, h2, this]

theorem ge_single (x y : Nat) : ge ⟨[x]⟩ ⟨[y]⟩ = decide (y ≤ x) := by
  simp only [ge, lt_single]
  by_cases h : x < y
  · have : ¬ y ≤ x := by omega
    simp [h, this]
  · have : y ≤ x := by omega
    simp [h, this]

theorem sub_single (x y : Nat) (hy : y ≤ x) (hx : x < BASE) :
    sub ⟨[x]⟩ ⟨[y]⟩ = .ok ⟨[x - y]⟩ := by
  have hc := canon_singleton x hx
  have hcy := canon_singleton y (by omega)
  obtain ⟨r, hr, hrc, hrv⟩ := sub_spec [x] [y] hc hcy (by simpa [value] using hy)
  have hv : value r = x - y := by
    simp only [value_cons, value_nil, Nat.mul_zero, Nat.add_zero] at hrv
    omega
  have := canon_single r hrc (by rw [hv]; omega)
  rw [hv] at this
  rw [hr, this]

theorem mul_single (x y : Nat) (hx : x < BASE) (hy : y < BASE) (hxy : x * y < BASE) :
    mul ⟨[x]⟩ ⟨[y]⟩ = .ok ⟨[x * y]⟩ := by
  have hlx : limbsOk ⟨[x]⟩ := by simpa [limbsOk] using hx
  have hly : limbsOk ⟨[y]⟩ := by simpa [limbsOk] using hy
  obtain ⟨r, hr, hlen, hlimb, hval⟩ := mul_spec ⟨[x]⟩ ⟨[y]⟩ hlx hly
  have hv : value r = x * y := by
    simpa [value] using hval
  have hne : r ≠ [] := by
    intro h
    rw [h] at hlen
    simp at hlen
  have hc := canon_strip r hne hlimb
  have := canon_single (strip r) hc (by rw [strip_value, hv]; exact hxy)
  rw [strip_value, hv] at this
  rw [hr, this]

theorem div_single (x y : Nat) (hx : x < BASE) (hy : y < BASE) (hpos : 0 < y) :
    div ⟨[x]⟩ ⟨[y]⟩ = .ok ⟨[x / y]⟩ := by
  have hcy : Canon (BigNum.mk [y]).data := canon_singleton y hy
  obtain ⟨qs, r, hdl, hlen, _, hval, hrlt⟩ := divLoop_spec ⟨[y]⟩ hcy [x] ⟨[]⟩
    (by simpa using hx) (by simp [limbsOk]) rfl (by simpa [value] using hpos)
  have hq : qs = [x / y] := by
    cases qs with
    | nil => simp at hlen
    | cons q qs1 =>
      cases qs1 with
      | cons q2 qs2 => simp at hlen
      | nil =>
        simp only [value_cons, value_nil, Nat.mul_zero, Nat.add_zero, List.reverse_cons,
          List.reverse_nil, List.nil_append, List.length_singleton, pow_one] at hval hrlt
        have hdiv : x / y = q := by
          apply Nat.div_eq_of_lt_le
          · rw [← hval]; omega
          · rw [← hval, Nat.succ_mul]; omega
        rw [hdiv]
  have heq : eq ⟨[y]⟩ ⟨[]⟩ = false := by simp [eq]
  have hz : ofUInt64 0 = ⟨[]⟩ := rfl
  have hdl2 : divLoop ⟨[y]⟩ [x] ⟨[]⟩ = .ok (qs, r) := hdl
  simp only [div, hz, heq, List.reverse_cons, List.reverse_nil, List.nil_append, hdl2, hq,
    strip_singleton]
  rfl

theorem toInt_single (x : Nat) (hx : x < 2 ^ 31) : toInt ⟨[x]⟩ = (x : Int) := by
  simp only [toInt]
  have h1 : x % 2 ^ 32 = x := Nat.mod_eq_of_lt (by omega)
  rw [h1, if_pos hx]

theorem max_single (x y : Nat) : max ⟨[x]⟩ ⟨[y]⟩ = ⟨[Max.max x y]⟩ := by
  simp only [max, lt_single]
  by_cases h : x < y
  · simp [h, Nat.max_eq_right (Nat.le_of_lt h)]
  · simp [h, Nat.max_eq_left (Nat.le_of_not_lt h)]

theorem sieveStart_single (l p : Nat) (hl : 1 ≤ l) (hl2 : l < 2 ^ 31) (hp : 2 ≤ p)
    (hp2 : p ≤ 2 ^ 15) :
    sieveStart ⟨[l]⟩ ⟨[p]⟩ = .ok ⟨[Max.max (p * p) ((l + p - 1) / p * p)]⟩ := by
  have hB := BASE_val
  have hW := WORD_val
  have hpp : p * p ≤ 2 ^ 15 * 2 ^ 15 := Nat.mul_le_mul hp2 hp2
  have h1 : mul ⟨[p]⟩ ⟨[p]⟩ = .ok ⟨[p * p]⟩ :=
    mul_single p p (by omega) (by omega) (by omega)
  have h2 : add ⟨[l]⟩ ⟨[p]⟩ = ⟨[l + p]⟩ := add_single l p (by omega)
  have h3 : sub ⟨[l + p]⟩ (ofUInt64 1) = .ok ⟨[l + p - 1]⟩ := by
    rw [ofUInt64_pos 1 (by omega)]
    exact sub_single (l + p) 1 (by omega) (by omega)
  have h4 : div ⟨[l + p - 1]⟩ ⟨[p]⟩ = .ok ⟨[(l + p - 1) / p]⟩ :=
    div_single (l + p - 1) p (by omega) (by omega) (by omega)
  have hq : (l + p - 1) / p * p ≤ l + p - 1 := Nat.div_mul_le_self _ _
  have hq2 : (l + p - 1) / p ≤ l + p - 1 := Nat.div_le_self _ _
  have h5 : mul ⟨[(l + p - 1) / p]⟩ ⟨[p]⟩ = .ok ⟨[(l + p - 1) / p * p]⟩ :=
    mul_single _ p (by omega) (by omega) (by omega)
  simp only [sieveStart, h1, h2, h3, h4, h5, max_single]

/-! ### The loops of `segmented_sieve` -/

theorem mark_step_iff (l h p j i : Nat) (hp : 1 ≤ p) (hlj : l ≤ j) (hjh : j ≤ h) :
    (i ≠ j - l ∧ ¬ (j + p ≤ i + l ∧ i + l ≤ h ∧ p ∣ (i + l - (j + p)))) ↔
      ¬ (j ≤ i + l ∧ i + l ≤ h ∧ p ∣ (i + l - j)) := by
  constructor
  · rintro ⟨h1, h2⟩ ⟨h3, h4, h5⟩
    have hne : i + l ≠ j := by omega
    have hpos : 0 < i + l - j := by omega
    have hle : p ≤ i + l - j := Nat.le_of_dvd hpos h5
    apply h2
    refine ⟨by omega, h4, ?_⟩
    have : i + l - (j + p) = (i + l - j) - p := by omega
    rw [this]
    exact Nat.dvd_sub' h5 (dvd_refl p)
  · intro h1
    constructor
    · intro hi
      apply h1
      refine ⟨by omega, by omega, ?_⟩
      have : i + l - j = 0 := by omega
      rw [this]
      exact dvd_zero p
    · rintro ⟨h3, h4, h5⟩
      apply h1
      refine ⟨by omega, h4, ?_⟩
      have : i + l - j = (i + l - (j + p)) + p := by omega
      rw [this]
      exact Dvd.dvd.add h5 (dvd_refl p)

theorem markLoop_spec (l h p : Nat) (hp : 1 ≤ p) (hp2 : p ≤ 2 ^ 15) (hh : h < 2 ^ 31) :
    ∀ (fuel j : Nat) (bits : List Nat), l ≤ j → (h - l) / 8 < bits.length →
      h + 1 ≤ fuel + j →
      ∃ bits1, markLoop ⟨[l]⟩ ⟨[h]⟩ ⟨[p]⟩ fuel ⟨[j]⟩ bits = .ok bits1 ∧
        bits1.length = bits.length ∧
        ∀ i, (bitAt bits1 i = true ↔
          bitAt bits i = true ∧ ¬ (j ≤ i + l ∧ i + l ≤ h ∧ p ∣ (i + l - j))) := by
  have hdone : ∀ (j : Nat) (bits : List Nat), ¬ j ≤ h →
      ∀ i, (bitAt bits i = true ↔
        bitAt bits i = true ∧ ¬ (j ≤ i + l ∧ i + l ≤ h ∧ p ∣ (i + l - j))) := by
    intro j bits hj i
    constructor
    · intro hb
      exact ⟨hb, fun hc => hj (by omega)⟩
    · intro hb
      exact hb.1
  intro fuel
  induction fuel with
  | zero =>
    intro j bits _ _ hf
    have hj : ¬ j ≤ h := by omega
    refine ⟨bits, ?_, rfl, hdone j bits hj⟩
    simp [markLoop, le_single, hj]
  | succ fuel ih =>
    intro j bits hlj hlen hf
    by_cases hj : j ≤ h
    · have hB := BASE_val
      have hW := WORD_val
      have hsub : sub ⟨[j]⟩ ⟨[l]⟩ = .ok ⟨[j - l]⟩ := sub_single j l hlj (by omega)
      have hto : toInt ⟨[j - l]⟩ = ((j - l : Nat) : Int) := toInt_single (j - l) (by omega)
      have hidx : (j - l) / 8 < bits.length :=
        Nat.lt_of_le_of_lt (Nat.div_le_div_right (by omega)) hlen
      obtain ⟨b1, hb1, hb1len, hb1bit⟩ := clearBit_spec bits (j - l) hidx
      have hadd : add ⟨[j]⟩ ⟨[p]⟩ = ⟨[j + p]⟩ := add_single j p (by omega)
      obtain ⟨b2, hb2, hb2len, hb2bit⟩ := ih (j + p) b1 (by omega) (by rw [hb1len]; exact hlen)
        (by omega)
      refine ⟨b2, ?_, by rw [hb2len, hb1len], ?_⟩
      · simp only [markLoop, le_single, ge_single, hj, hlj, decide_True, if_true, hsub, hto,
          hb1, hadd, hb2]
      · intro i
        rw [hb2bit i, hb1bit i, ← mark_step_iff l h p j i hp hlj hj]
        simp only [Bool.and_eq_true, decide_eq_true_eq]
        tauto
    · refine ⟨bits, ?_, rfl, hdone j bits hj⟩
      simp [markLoop, le_single, hj]

theorem ceil_mul_ge (l p : Nat) (hp : 1 ≤ p) : l ≤ (l + p - 1) / p * p := by
  have h1 := Nat.div_add_mod (l + p - 1) p
  have h2 := Nat.mod_lt (l + p - 1) (show 0 < p by omega)
  rw [Nat.mul_comm] at h1
  omega

theorem dvd_sieve_start (l p : Nat) : p ∣ Max.max (p * p) ((l + p - 1) / p * p) := by
  rcases Nat.le_total (p * p) ((l + p - 1) / p * p) with h | h
  · rw [Nat.max_eq_right h]
    exact Dvd.intro_left _ rfl
  · rw [Nat.max_eq_left h]
    exact Dvd.intro _ rfl

theorem sieveLoop_spec (l h fuel : Nat) (hl : 1 ≤ l) (hlh : l ≤ h) (hh : h < 2 ^ 31)
    (hfuel : h < fuel) :
    ∀ (ps : List Nat) (bits : List Nat), (∀ p ∈ ps, 2 ≤ p ∧ p ≤ 2 ^ 15) →
      (h - l) / 8 < bits.length →
      ∃ bits1, sieveLoop fuel ⟨[l]⟩ ⟨[h]⟩ (ps.map ofUInt64) bits = .ok bits1 ∧
        bits1.length = bits.length ∧
        ∀ i, (bitAt bits1 i = true ↔ bitAt bits i = true ∧
          ∀ p ∈ ps, ¬ (Max.max (p * p) ((l + p - 1) / p * p) ≤ i + l ∧ i + l ≤ h ∧
            p ∣ (i + l))) := by
  intro ps
  induction ps with
  | nil =>
    intro bits _ _
    exact ⟨bits, rfl, rfl, fun i => by simp⟩
  | cons p ps ih =>
    intro bits hps hlen
    obtain ⟨hp1, hp2⟩ := hps p (List.mem_cons_self _ _)
    have hps1 : ∀ q ∈ ps, 2 ≤ q ∧ q ≤ 2 ^ 15 := fun q hq => hps q (List.mem_cons_of_mem _ hq)
    have hst := sieveStart_single l p hl (by omega) hp1 hp2
    have hdvd := dvd_sieve_start l p
    have hlst : l ≤ Max.max (p * p) ((l + p - 1) / p * p) :=
      Nat.le_trans (ceil_mul_ge l p (by omega)) (Nat.le_max_right _ _)
    obtain ⟨b1, hb1, hb1len, hb1bit⟩ := markLoop_spec l h p (by omega) hp2 hh fuel
      (Max.max (p * p) ((l + p - 1) / p * p)) bits hlst hlen (by omega)
    obtain ⟨b2, hb2, hb2len, hb2bit⟩ := ih b1 hps1 (by rw [hb1len]; exact hlen)
    refine ⟨b2, ?_, by rw [hb2len, hb1len], ?_⟩
    · simp only [List.map_cons, sieveLoop, ofUInt64_pos p (by omega), hst, hb1, hb2]
    · intro i
      rw [hb2bit i, hb1bit i]
      have hd : Max.max (p * p) ((l + p - 1) / p * p) ≤ i + l →
          (p ∣ (i + l - Max.max (p * p) ((l + p - 1) / p * p)) ↔ p ∣ (i + l)) := by
        intro hle2
        constructor
        · intro hd1
          have := Dvd.dvd.add hd1 hdvd
          rwa [Nat.sub_add_cancel hle2] at this
        · intro hd1
          exact Nat.dvd_sub' hd1 hdvd
      constructor
      · rintro ⟨⟨hb, hn1⟩, hn2⟩
        refine ⟨hb, ?_⟩
        intro q hq
        rcases List.mem_cons.mp hq with h1 | h1
        · subst h1
          rintro ⟨c1, c2, c3⟩
          exact hn1 ⟨c1, c2, (hd c1).mpr c3⟩
        · exact hn2 q h1
      · rintro ⟨hb, hn⟩
        refine ⟨⟨hb, ?_⟩, fun q hq => hn q (List.mem_cons_of_mem _ hq)⟩
        rintro ⟨c1, c2, c3⟩
        exact hn p (List.mem_cons_self _ _) ⟨c1, c2, (hd c1).mp c3⟩

theorem lt_ofUInt64_single (i s : Nat) (hs : 0 < s) :
    lt (ofUInt64 i) ⟨[s]⟩ = decide (i < s) := by
  by_cases h0 : i = 0
  · subst h0
    have : ofUInt64 0 = ⟨[]⟩ := rfl
    rw [this, lt_of_empty [s] (by simp)]
    simp [hs]
  · rw [ofUInt64_pos i (by omega), lt_single]

theorem toInt_ofUInt64 (i : Nat) (hi : i < 2 ^ 31) : toInt (ofUInt64 i) = (i : Int) := by
  by_cases h0 : i = 0
  · subst h0
    rfl
  · rw [ofUInt64_pos i (by omega), toInt_single i hi]

theorem add_ofUInt64_one (i : Nat) (hi : i + 1 < WORD) :
    add (ofUInt64 i) (ofUInt64 1) = ofUInt64 (i + 1) := by
  rw [ofUInt64_pos 1 (by omega), ofUInt64_pos (i + 1) (by omega)]
  by_cases h0 : i = 0
  · subst h0
    have : ofUInt64 0 = ⟨[]⟩ := rfl
    rw [this, add_empty_left 1 (by omega)]
  · rw [ofUInt64_pos i (by omega), add_single i 1 hi]

theorem add_single_ofUInt64 (l i : Nat) (hl : 0 < l) (hi : l + i < WORD) :
    add ⟨[l]⟩ (ofUInt64 i) = ofUInt64 (l + i) := by
  rw [ofUInt64_pos (l + i) (by omega)]
  by_cases h0 : i = 0
  · subst h0
    have : ofUInt64 0 = ⟨[]⟩ := rfl
    rw [this, add_empty_right l (by omega)]
    rfl
  · rw [ofUInt64_pos i (by omega), add_single l i hi]

theorem outputLoop_spec (l s : Nat) (bits : List Nat) (hl : 1 ≤ l) (hs : l + s < 2 ^ 31)
    (hs0 : 0 < s) (hbits : s ≤ 8 * bits.length) :
    ∀ (fuel i : Nat), i ≤ s → s ≤ fuel + i →
      outputLoop ⟨[l]⟩ ⟨[s]⟩ bits fuel (ofUInt64 i) = .ok
        (((List.range' (l + i) (s - i)).filter (fun n => bitAt bits (n - l))).map ofUInt64) := by
  intro fuel
  induction fuel with
  | zero =>
    intro i h1 h2
    have hi : i = s := by omega
    subst hi
    simp [outputLoop, lt_ofUInt64_single i i hs0]
  | succ fuel ih =>
    intro i h1 h2
    have hW := WORD_val
    by_cases hi : i < s
    · have hlt : lt (ofUInt64 i) ⟨[s]⟩ = true := by
        rw [lt_ofUInt64_single i s hs0]
        simpa using hi
      have hto : toInt (ofUInt64 i) = (i : Int) := toInt_ofUInt64 i (by omega)
      have htest : testBit bits (i : Int) = .ok (bitAt bits i) :=
        testBit_spec bits i (by omega)
      have hnext : add (ofUInt64 i) (ofUInt64 1) = ofUInt64 (i + 1) :=
        add_ofUInt64_one i (by omega)
      have hout : add ⟨[l]⟩ (ofUInt64 i) = ofUInt64 (l + i) :=
        add_single_ofUInt64 l i (by omega) (by omega)
      have hrec := ih (i + 1) (by omega) (by omega)
      have hrange : List.range' (l + i) (s - i) = (l + i) :: List.range' (l + (i + 1)) (s - (i + 1)) := by
        have : s - i = (s - (i + 1)) + 1 := by omega
        rw [this, List.range'_succ]
        rfl
      have hbit : bitAt bits (l + i - l) = bitAt bits i := by
        rw [Nat.add_sub_cancel_left]
      simp only [outputLoop, hlt, if_true, hto, htest, hnext, hrec, hout, hrange,
        List.filter_cons, hbit]
      cases hb : bitAt bits i <;> simp
    · have hi2 : i = s := by omega
      subst hi2
      simp [outputLoop, lt_ofUInt64_single i i hs0]

theorem sieve_prime_iff (l h n : Nat) (ps : List Nat) (hl : 2 ≤ l) (hn1 : l ≤ n) (hn2 : n ≤ h)
    (hps : ∀ p ∈ ps, 2 ≤ p ∧ p ≤ 2 ^ 15)
    (hall : ∀ p, Nat.Prime p → p * p ≤ h → p ∈ ps) :
    (∀ p ∈ ps, ¬ (Max.max (p * p) ((l + p - 1) / p * p) ≤ n ∧ n ≤ h ∧ p ∣ n)) ↔
      Nat.Prime n := by
  constructor
  · intro hno
    by_contra hnp
    have hq := Nat.minFac_prime (show n ≠ 1 by omega)
    have hqd := Nat.minFac_dvd n
    have hsq : n.minFac * n.minFac ≤ n := by
      have := Nat.minFac_sq_le_self (show 0 < n by omega) hnp
      rwa [sq] at this
    have hmem := hall n.minFac hq (by omega)
    apply hno n.minFac hmem
    refine ⟨?_, hn2, hqd⟩
    apply Nat.max_le.mpr
    refine ⟨hsq, ?_⟩
    obtain ⟨m, hm⟩ := hqd
    have hqpos : 0 < n.minFac := hq.pos
    have hlt : (l + n.minFac - 1) / n.minFac < m + 1 := by
      rw [Nat.div_lt_iff_lt_mul hqpos]
      have : n.minFac * m + n.minFac = (m + 1) * n.minFac := by ring
      omega
    have hle : (l + n.minFac - 1) / n.minFac * n.minFac ≤ m * n.minFac :=
      Nat.mul_le_mul_right _ (by omega)
    rw [Nat.mul_comm m] at hle
    omega
  · intro hpr p hp
    rintro ⟨c1, _, c3⟩
    obtain ⟨hp1, _⟩ := hps p hp
    have hpn : p = n := by
      rcases (Nat.dvd_prime hpr).mp c3 with h1 | h1
      · omega
      · exact h1
    subst hpn
    have h1 : p * p ≤ Max.max (p * p) ((l + p - 1) / p * p) := Nat.le_max_left _ _
    have h2 : p * 2 ≤ p * p := Nat.mul_le_mul_left _ hp1
    omega

/-- C18: for every segment with `2 ≤ low ≤ high < 2 ^ 31` and every list `small_primes` whose
entries are at least `2` and at most `2 ^ 15` and among which is every prime `p` with
`p * p ≤ high`, the worker `segmented_sieve`, given an iteration budget above `high`, writes
to its buffer exactly the primes `n` with `low ≤ n ≤ high`, each once, in ascending order. -/
theorem segmented_sieve_primes (l h fuel : Nat) (ps : List Nat) (hl : 2 ≤ l) (hlh : l ≤ h)
    (hh : h < 2 ^ 31) (hps : ∀ p ∈ ps, 2 ≤ p ∧ p ≤ 2 ^ 15)
    (hall : ∀ p, Nat.Prime p → p * p ≤ h → p ∈ ps) (hfuel : h < fuel) :
    segmented_sieve fuel (ofUInt64 l) (ofUInt64 h) (ps.map ofUInt64) = .ok
      (((List.range' l (h - l + 1)).filter (fun n => decide (Nat.Prime n))).map ofUInt64) := by
  have hB := BASE_val
  have hW := WORD_val
  have hbig : h < 32771 * 32771 := by
    by_contra hc
    have hp : Nat.Prime 32771 := by norm_num
    have := (hps 32771 (hall 32771 hp (by omega))).2
    omega
  have hsub : sub ⟨[h]⟩ ⟨[l]⟩ = .ok ⟨[h - l]⟩ := sub_single h l hlh (by omega)
  have hsize : add ⟨[h - l]⟩ (ofUInt64 1) = ⟨[h - l + 1]⟩ := by
    rw [ofUInt64_pos 1 (by omega)]
    exact add_single (h - l) 1 (by omega)
  have hto : toInt ⟨[h - l + 1]⟩ = ((h - l + 1 : Nat) : Int) := toInt_single _ (by omega)
  have hnew : newBits ⟨[h - l + 1]⟩ = .ok (List.replicate ((h - l + 1 + 7) / 8) 255) := by
    simp only [newBits, hto]
    rw [if_neg (by omega)]
    have : ((h - l + 1 : Nat) : Int) + 7 = ((h - l + 1 + 7 : Nat) : Int) := by push_cast; ring
    rw [this, Int.toNat_ofNat]
  have hlen0 : (h - l) / 8 < (List.replicate ((h - l + 1 + 7) / 8) 255).length := by
    rw [List.length_replicate]
    omega
  obtain ⟨b1, hb1, hb1len, hb1bit⟩ := sieveLoop_spec l h fuel (by omega) hlh hh hfuel ps
    (List.replicate ((h - l + 1 + 7) / 8) 255) hps hlen0
  have hout := outputLoop_spec l (h - l + 1) b1 (by omega) (by omega) (by omega)
    (by rw [hb1len, List.length_replicate]; omega) fuel 0 (by omega) (by omega)
  simp only [segmented_sieve, ofUInt64_pos l (by omega), ofUInt64_pos h (by omega), hsub, hsize,
    hnew, hb1]
  rw [hout]
  simp only [Nat.add_zero, Nat.sub_zero]
  congr 2
  apply List.filter_congr
  intro n hn
  rw [List.mem_range'_1] at hn
  have hidx : (n - l) / 8 < (h - l + 1 + 7) / 8 := by omega
  have hinit := bitAt_replicate ((h - l + 1 + 7) / 8) (n - l) hidx
  have hiff := hb1bit (n - l)
  rw [Nat.sub_add_cancel hn.1, hinit] at hiff
  have hprime := sieve_prime_iff l h n ps hl hn.1 (by omega) hps hall
  by_cases hp : Nat.Prime n
  · have : bitAt b1 (n - l) = true := hiff.mpr ⟨rfl, hprime.mpr hp⟩
    simp [this, hp]
  · have : ¬ bitAt b1 (n - l) = true := fun hb => hp (hprime.mp (hiff.mp hb).2)
    simp [this, hp]

/-- Witness of C18: the segment from 2 to 30 with the small primes 2, 3 and 5; the buffer
holds the ten primes up to 29. -/
theorem segmented_sieve_primes_witness :
    (∀ p ∈ [2, 3, 5], 2 ≤ p ∧ p ≤ 2 ^ 15) ∧
    (∀ p, Nat.Prime p → p * p ≤ 30 → p ∈ [2, 3, 5]) ∧
    segmented_sieve 31 (ofUInt64 2) (ofUInt64 30) ([2, 3, 5].map ofUInt64) = .ok
      ([2, 3, 5, 7, 11, 13, 17, 19, 23, 29].map ofUInt64) ∧
    segmented_sieve 31 (ofUInt64 2) (ofUInt64 30) ([2, 3, 5].map ofUInt64) = .ok
      (((List.range' 2 (30 - 2 + 1)).filter (fun n => decide (Nat.Prime n))).map ofUInt64) :=
  have hall : ∀ p, Nat.Prime p → p * p ≤ 30 → p ∈ [2, 3, 5] := by
    intro p hp hpp
    have hp6 : p < 6 := by
      by_contra hc
      have : 6 * 6 ≤ p * p := Nat.mul_le_mul (by omega) (by omega)
      omega
    have h2 := hp.two_le
    interval_cases p
    · simp
    · simp
    · exact absurd hp (by norm_num)
    · simp
  ⟨by decide, hall, rfl,
    segmented_sieve_primes 2 30 31 [2, 3, 5] (by decide) (by decide) (by decide) (by decide)
      hall (by decide)⟩

end BigNum
